import Mathlib

/-!
# A* pathfinding visualizer: verification of the search core

A shallow embedding of the A* search engine of `src/algorithms/astar.ts`
(`astarGenerator`, `getUnvisitedNeighbors`, `heuristic`,
`getNodesInShortestPathOrder`) together with the node data shape of
`src/types.ts`.  JavaScript numbers holding `0, 1, 2, …` or `Infinity` are
modelled as `Option ℕ` with `none` standing for `Infinity`; the generator's
suspended computation is modelled as a fuel-indexed loop over an explicit
state, returning the emitted step events, the final state and the
termination kind (with `none` meaning the fuel ran out before the loop
ended).
-/

namespace AStar

/-- A grid position: the `row`/`col` fields of a `NodeType` (`src/types.ts`). -/
structure Pos where
  row : ℕ
  col : ℕ
deriving DecidableEq, Repr

/-- The mutable search-state fields of a `NodeType` (`src/types.ts`):
`distance`, `gScore`, `hScore`, `fScore` are JavaScript numbers that are
either a natural number or `Infinity` (`none`); `previousNode` is a node
reference, identified with its position. -/
structure NodeState where
  distance : Option ℕ
  gScore : Option ℕ
  hScore : Option ℕ
  fScore : Option ℕ
  isVisited : Bool
  previousNode : Option Pos
deriving DecidableEq, Repr

/-- The search-state defaults every node holds when a run begins, from the
`Pathfinder` component (`src/components/Node.tsx`): `createNode` builds
each cell with `distance`, `gScore`, `hScore`, `fScore` all `Infinity`,
`isVisited: false` and `previousNode: null`, and `initGenerator`'s
clean-grid pass (`grid.map(row => row.map(node => ({ ...node, distance:
Infinity, isVisited: false, previousNode: null, fScore: Infinity, gScore:
Infinity, hScore: Infinity, ... })))`) resets exactly these six fields to
the same values before each run, preserving positions, role flags and
walls. -/
def resetNode : NodeState :=
  { distance := none, gScore := none, hScore := none, fScore := none,
    isVisited := false, previousNode := none }

/-- The static data of a run: grid dimensions, the wall layout (the
immutable-during-a-run `isWall` flags), and the `startNode` / `finishNode`
arguments of `astarGenerator`. -/
structure Config where
  rows : ℕ
  cols : ℕ
  isWall : Pos → Bool
  start : Pos
  finish : Pos

/-- `p` is a cell of the `cfg.rows × cfg.cols` grid. -/
def inBounds (cfg : Config) (p : Pos) : Prop :=
  p.row < cfg.rows ∧ p.col < cfg.cols

instance (cfg : Config) (p : Pos) : Decidable (inBounds cfg p) :=
  inferInstanceAs (Decidable (_ ∧ _))

/-- `|a - b|` on naturals; `omega`-friendly form of the absolute difference. -/
def natDist (a b : ℕ) : ℕ := (a - b) + (b - a)

/-- The Manhattan-distance `heuristic` of `src/algorithms/astar.ts`:
`Math.abs(node.row - finishNode.row) + Math.abs(node.col - finishNode.col)`. -/
def heuristic (p q : Pos) : ℕ := natDist p.row q.row + natDist p.col q.col

/-- `x + 1` on number-or-`Infinity` (`Infinity + 1 = Infinity`). -/
def oAdd1 : Option ℕ → Option ℕ
  | none => none
  | some n => some (n + 1)

/-- `x + h` on number-or-`Infinity` for a finite `h`. -/
def oAddN : Option ℕ → ℕ → Option ℕ
  | none, _ => none
  | some n, h => some (n + h)

/-- `a < b` on number-or-`Infinity`: `Infinity < x` is false, finite `< Infinity`
is true, as in JavaScript. -/
def oLt : Option ℕ → Option ℕ → Bool
  | none, _ => false
  | some _, none => true
  | some a, some b => a < b

/-- `a ≤ b` on number-or-`Infinity` (`Infinity ≤ Infinity` is true). -/
def oLe : Option ℕ → Option ℕ → Bool
  | none, none => true
  | none, some _ => false
  | some _, none => true
  | some a, some b => a ≤ b

/-- The open-set comparator of the engine,
`(a, b) => a.fScore - b.fScore || a.hScore - b.hScore`, read as the total
preorder "`a` sorts no later than `b`": strictly smaller `fScore` first,
ties on `fScore` broken by `hScore`.  (When both `fScore`s are `Infinity`
the JavaScript difference is `NaN`, which is falsy, so the comparison falls
through to the `hScore`s, as modelled; two `Infinity` `hScore`s never meet
the comparator on a reachable open set.) -/
def keyLe (a b : NodeState) : Bool :=
  if oLt a.fScore b.fScore then true
  else if oLt b.fScore a.fScore then false
  else oLe a.hScore b.hScore

/-- The kind tag of an emitted step: `'open'` or `'visited'`
(`AlgoStep.type` in `src/algorithms/astar.ts`; the `'path'` tag is declared
there but never emitted by the generator). -/
inductive StepKind where
  | openNode
  | visitedNode
deriving DecidableEq, Repr

/-- One yielded step event `{ nodes, type }` of the generator. -/
structure AlgoStep where
  nodes : List Pos
  kind : StepKind
deriving DecidableEq, Repr

/-- The engine's state between two units of work: the per-node search state
and the open set (a JavaScript array, order significant). -/
structure AState where
  nodes : Pos → NodeState
  openSet : List Pos

/-- Write the search state of one node (the in-place field mutations). -/
def setNode (st : AState) (p : Pos) (ns : NodeState) : AState :=
  { st with nodes := fun q => if q = p then ns else st.nodes q }

/-- The four bounds-checked axis-aligned neighbour candidates, in the order
`getUnvisitedNeighbors` pushes them: up, down, left, right.  `cfg.rows`
plays `grid.length` and `cfg.cols` plays `grid[0].length`; the JavaScript
comparison `row < grid.length - 1` agrees with the truncated subtraction
`p.row < cfg.rows - 1` for every non-empty grid. -/
def neighborList (cfg : Config) (p : Pos) : List Pos :=
  (if 0 < p.row then [⟨p.row - 1, p.col⟩] else []) ++
  (if p.row < cfg.rows - 1 then [⟨p.row + 1, p.col⟩] else []) ++
  (if 0 < p.col then [⟨p.row, p.col - 1⟩] else []) ++
  (if p.col < cfg.cols - 1 then [⟨p.row, p.col + 1⟩] else [])

/-- `getUnvisitedNeighbors` of `src/algorithms/astar.ts`: the neighbour
candidates with the already-visited ones filtered out.  Walls are not
filtered here. -/
def getUnvisitedNeighbors (cfg : Config) (st : AState) (p : Pos) : List Pos :=
  (neighborList cfg p).filter (fun q => !(st.nodes q).isVisited)

/-- The node state written by a successful relaxation: `previousNode`,
`gScore`, `hScore`, `fScore` and `distance` are assigned; `isVisited` is
untouched. -/
def relaxedNode (current : Pos) (g h : ℕ) (vis : Bool) : NodeState :=
  { distance := some g, gScore := some g, hScore := some h,
    fScore := some (g + h), isVisited := vis, previousNode := some current }

/-- `if (!openSet.includes(neighbor)) openSet.push(neighbor)`: membership is
object identity, i.e. position equality, since a grid holds one node object
per cell. -/
def pushUnlessMem (st : AState) (p : Pos) : AState :=
  if p ∈ st.openSet then st else { st with openSet := st.openSet ++ [p] }

/-- The neighbour loop of `astarGenerator` (lines 42–59): for each listed
neighbour in order, compute `tentativeGScore = closestNode.gScore + 1`; when
it beats the neighbour's `gScore`, rewrite the neighbour's fields, push the
neighbour onto the open set unless already a member, and emit one `'open'`
event for it.  When the current node's `gScore` is `Infinity`, the
JavaScript comparison `Infinity < x` is false for every `x`, so no
neighbour is relaxed; the outer `match` encodes exactly that. -/
def relaxList (cfg : Config) (current : Pos) :
    List Pos → AState → AState × List AlgoStep
  | [], st => (st, [])
  | nbr :: rest, st =>
    match oAdd1 ((st.nodes current).gScore) with
    | none => relaxList cfg current rest st
    | some tg =>
      if oLt (some tg) ((st.nodes nbr).gScore) then
        let st2 := pushUnlessMem
          (setNode st nbr
            (relaxedNode current tg (heuristic nbr cfg.finish)
              ((st.nodes nbr).isVisited))) nbr
        let res := relaxList cfg current rest st2
        (res.1, ⟨[nbr], .openNode⟩ :: res.2)
      else
        relaxList cfg current rest st

/-- Why a finished run stopped: the goal was popped (`return` after its
`'visited'` yield), the open set emptied (the `while` guard failed), or the
defensive `closestNode.distance === Infinity` early `return` fired. -/
inductive TermKind where
  | goalReached
  | emptied
  | infinityHalt
deriving DecidableEq, Repr

/-- The outcome of one `while` iteration: either the loop goes on with the
events it yielded, or the generator returned. -/
inductive IterResult where
  | continued (evs : List AlgoStep) (st : AState)
  | halted (evs : List AlgoStep) (st : AState) (k : TermKind)

/-- The events of an iteration outcome. -/
def IterResult.evs : IterResult → List AlgoStep
  | .continued evs _ => evs
  | .halted evs _ _ => evs

/-- The state an iteration outcome leaves behind. -/
def IterResult.state : IterResult → AState
  | .continued _ st => st
  | .halted _ st _ => st

/-- The relation `sortOpen` sorts by, at a given state: node `p` sorts no
later than node `q` under the engine's comparator. -/
def popLe (st : AState) (p q : Pos) : Prop :=
  keyLe (st.nodes p) (st.nodes q) = true

instance (st : AState) : DecidableRel (popLe st) := fun _ _ =>
  inferInstanceAs (Decidable (_ = true))

/-- Sorting the open set in place:
`openSet.sort((a, b) => a.fScore - b.fScore || a.hScore - b.hScore)`.
`Array.prototype.sort` is stable, and the stable order for the comparator's
total preorder is computed by insertion sort with the comparator's `keyLe`. -/
def sortOpen (st : AState) : List Pos :=
  st.openSet.insertionSort (popLe st)

/-- One iteration of the `while (openSet.length > 0)` loop of
`astarGenerator`: sort the open set, shift the closest node, skip it when a
wall, `return` on the defensive `Infinity` check, else mark it visited,
yield its `'visited'` event, `return` when it is the finish node, and
otherwise relax its unvisited neighbours. -/
def iterate (cfg : Config) (st : AState) : IterResult :=
  match sortOpen st with
  | [] => .halted [] st .emptied
  | closest :: rest =>
    let st1 : AState := { st with openSet := rest }
    if cfg.isWall closest then .continued [] st1
    else if (st1.nodes closest).distance = none then .halted [] st1 .infinityHalt
    else
      let st2 := setNode st1 closest { st1.nodes closest with isVisited := true }
      let ev : AlgoStep := ⟨[closest], .visitedNode⟩
      if closest = cfg.finish then .halted [ev] st2 .goalReached
      else
        let nbrs := getUnvisitedNeighbors cfg st2 closest
        let res := relaxList cfg closest nbrs st2
        .continued (ev :: res.2) res.1

/-- The `while` loop, indexed by fuel: the concatenated events, the final
state, and `some k` when the loop genuinely ended (`none`: fuel ran out
first). -/
def loop (cfg : Config) : ℕ → AState → List AlgoStep × AState × Option TermKind
  | 0, st => ([], st, none)
  | Nat.succ fuel, st =>
    match iterate cfg st with
    | .continued evs st' =>
      let res := loop cfg fuel st'
      (evs ++ res.1, res.2.1, res.2.2)
    | .halted evs st' k => (evs, st', k)

/-- The state at the start of a run: every node reset (see `resetNode`),
then the initialization of `astarGenerator` applied to the start node:
`distance = 0`, `gScore = 0`, `hScore = heuristic(start, finish)`,
`fScore = gScore + hScore`; the open set is `[startNode]`. -/
def initState (cfg : Config) : AState :=
  let h := heuristic cfg.start cfg.finish
  { nodes := fun q =>
      if q = cfg.start then
        { distance := some 0, gScore := some 0, hScore := some h,
          fScore := some (0 + h), isVisited := false, previousNode := none }
      else resetNode,
    openSet := [cfg.start] }

/-- A whole run of `astarGenerator`: the initial `'open'` yield for the
start node followed by the `while` loop. -/
def astarRun (cfg : Config) (fuel : ℕ) :
    List AlgoStep × AState × Option TermKind :=
  let res := loop cfg fuel (initState cfg)
  (⟨[cfg.start], StepKind.openNode⟩ :: res.1, res.2.1, res.2.2)

/-- The backward walk of `getNodesInShortestPathOrder`: follow
`previousNode` links, collecting nodes front-first.  The JavaScript `while`
has no cycle guard, so the walk is fuel-indexed; `none` models the loop not
returning within the fuel. -/
def pathFrom (st : AState) : ℕ → Option Pos → Option (List Pos)
  | _, none => some []
  | 0, some _ => none
  | Nat.succ fuel, some p =>
    match pathFrom st fuel ((st.nodes p).previousNode) with
    | none => none
    | some l => some (l ++ [p])

/-- `getNodesInShortestPathOrder(finishNode)` of `src/algorithms/astar.ts`:
start the backward walk at the given node (non-null), return the collected
nodes start-first. -/
def getNodesInShortestPathOrder (st : AState) (fuel : ℕ) (p : Pos) :
    Option (List Pos) :=
  pathFrom st fuel (some p)

/-- A cell that some wall-free walk from the start reaches: the start
itself, or a bounds-checked neighbour of a reachable non-wall cell.  Walls
block onward movement but may themselves be reached (as endpoints). -/
inductive Reachable (cfg : Config) : Pos → Prop where
  | start : Reachable cfg cfg.start
  | step {p q : Pos} : Reachable cfg p → cfg.isWall p = false →
      q ∈ neighborList cfg p → Reachable cfg q

/-! ## Order facts about the comparator -/

theorem oLt_asymm {a b : Option ℕ} (h : oLt a b = true) : oLt b a = false := by
  cases a <;> cases b <;> simp_all [oLt] <;> omega

theorem oLe_refl (a : Option ℕ) : oLe a a = true := by
  cases a <;> simp [oLe]

theorem oLe_total (a b : Option ℕ) : oLe a b = true ∨ oLe b a = true := by
  cases a <;> cases b <;> simp [oLe] <;> omega

theorem oLe_trans {a b c : Option ℕ} (h1 : oLe a b = true) (h2 : oLe b c = true) :
    oLe a c = true := by
  cases a <;> cases b <;> cases c <;> simp_all [oLe] <;> omega

theorem oLt_trans_le {a b c : Option ℕ} (h1 : oLt a b = true) (h2 : oLe b c = true) :
    oLt a c = true := by
  cases a <;> cases b <;> cases c <;> simp_all [oLt, oLe] <;> omega

theorem oLe_trans_lt {a b c : Option ℕ} (h1 : oLe a b = true) (h2 : oLt b c = true) :
    oLt a c = true := by
  cases a <;> cases b <;> cases c <;> simp_all [oLt, oLe] <;> omega

theorem oLt_irrefl (a : Option ℕ) : oLt a a = false := by
  cases a <;> simp [oLt]

theorem keyLe_total (a b : NodeState) : keyLe a b = true ∨ keyLe b a = true := by
  unfold keyLe
  rcases h1 : oLt a.fScore b.fScore <;> rcases h2 : oLt b.fScore a.fScore <;>
    simp [oLe_total]

theorem keyLe_trans {a b c : NodeState} (h1 : keyLe a b = true) (h2 : keyLe b c = true) :
    keyLe a c = true := by
  unfold keyLe at *
  cases hf1 : a.fScore <;> cases hf2 : b.fScore <;> cases hf3 : c.fScore <;>
    cases hh1 : a.hScore <;> cases hh2 : b.hScore <;> cases hh3 : c.hScore <;>
    simp_all [oLt, oLe] <;> omega

instance (st : AState) : IsTotal Pos (popLe st) :=
  ⟨fun p q => keyLe_total (st.nodes p) (st.nodes q)⟩

instance (st : AState) : IsTrans Pos (popLe st) :=
  ⟨fun _ _ _ => keyLe_trans⟩

theorem sortOpen_perm (st : AState) : List.Perm (sortOpen st) st.openSet :=
  List.perm_insertionSort _ _

theorem sortOpen_sorted (st : AState) : List.Sorted (popLe st) (sortOpen st) :=
  List.sorted_insertionSort (popLe st) st.openSet

theorem sortOpen_nil_iff (st : AState) : sortOpen st = [] ↔ st.openSet = [] := by
  constructor
  · intro h
    have := sortOpen_perm st
    rw [h] at this
    exact this.nil_eq.symm
  · intro h
    have := sortOpen_perm st
    rw [h] at this
    exact List.Perm.eq_nil this

theorem sortOpen_head_min {st : AState} {p : Pos} {rest : List Pos}
    (h : sortOpen st = p :: rest) :
    ∀ q ∈ st.openSet, keyLe (st.nodes p) (st.nodes q) = true := by
  intro q hq
  have hperm := sortOpen_perm st
  rw [h] at hperm
  have hq' : q ∈ p :: rest := hperm.mem_iff.mpr hq
  rcases List.mem_cons.mp hq' with rfl | hq''
  · rcases keyLe_total (st.nodes q) (st.nodes q) with h' | h' <;> exact h'
  · have hs := sortOpen_sorted st
    rw [h] at hs
    exact (List.sorted_cons.mp hs).1 q hq''

theorem sortOpen_mem {st : AState} {p : Pos} {rest : List Pos}
    (h : sortOpen st = p :: rest) : p ∈ st.openSet := by
  have hperm := sortOpen_perm st
  rw [h] at hperm
  exact hperm.mem_iff.mp (List.mem_cons_self p rest)

theorem sortOpen_rest_mem {st : AState} {p : Pos} {rest : List Pos}
    (h : sortOpen st = p :: rest) : ∀ q ∈ rest, q ∈ st.openSet := by
  intro q hq
  have hperm := sortOpen_perm st
  rw [h] at hperm
  exact hperm.mem_iff.mp (List.mem_cons_of_mem p hq)

theorem sortOpen_nodup {st : AState} (h : st.openSet.Nodup) :
    (sortOpen st).Nodup :=
  ((sortOpen_perm st).nodup_iff).mpr h

theorem sortOpen_mem_of_mem {st : AState} {q : Pos} (h : q ∈ st.openSet) :
    q ∈ sortOpen st :=
  (sortOpen_perm st).mem_iff.mpr h

theorem oLe_of_oLt {a b : Option ℕ} (h : oLt a b = true) : oLe a b = true := by
  cases a <;> cases b <;> simp_all [oLt, oLe] <;> omega

theorem oLe_none_right (a : Option ℕ) : oLe a none = true := by
  cases a <;> simp [oLe]

theorem oLe_none_left {a : Option ℕ} (h : oLe none a = true) : a = none := by
  cases a <;> simp_all [oLe]

/-! ## Facts about `setNode`, `pushUnlessMem` and `relaxList` -/

theorem setNode_nodes_self (st : AState) (p : Pos) (ns : NodeState) :
    (setNode st p ns).nodes p = ns := by
  simp [setNode]

theorem setNode_nodes_ne (st : AState) {p q : Pos} (ns : NodeState) (h : q ≠ p) :
    (setNode st p ns).nodes q = st.nodes q := by
  simp [setNode, h]

theorem setNode_openSet (st : AState) (p : Pos) (ns : NodeState) :
    (setNode st p ns).openSet = st.openSet := rfl

theorem pushUnlessMem_nodes (st : AState) (p : Pos) :
    (pushUnlessMem st p).nodes = st.nodes := by
  unfold pushUnlessMem; split <;> rfl

theorem pushUnlessMem_mem_iff (st : AState) (p q : Pos) :
    q ∈ (pushUnlessMem st p).openSet ↔ q ∈ st.openSet ∨ q = p := by
  unfold pushUnlessMem
  split
  · next h => simp only [iff_self_or]; rintro rfl; exact h
  · simp

theorem pushUnlessMem_mem_self (st : AState) (p : Pos) :
    p ∈ (pushUnlessMem st p).openSet :=
  (pushUnlessMem_mem_iff st p p).mpr (Or.inr rfl)

theorem pushUnlessMem_mono (st : AState) (p : Pos) {q : Pos}
    (h : q ∈ st.openSet) : q ∈ (pushUnlessMem st p).openSet :=
  (pushUnlessMem_mem_iff st p q).mpr (Or.inl h)

theorem pushUnlessMem_nodup (st : AState) (p : Pos) (h : st.openSet.Nodup) :
    (pushUnlessMem st p).openSet.Nodup := by
  unfold pushUnlessMem
  split
  · exact h
  · next hmem => simpa [List.nodup_append] using ⟨h, hmem⟩

theorem pushUnlessMem_len (st : AState) (p : Pos) :
    (pushUnlessMem st p).openSet.length ≤ st.openSet.length + 1 := by
  unfold pushUnlessMem
  split <;> simp

theorem relaxList_nodes_frame (cfg : Config) (current : Pos) :
    ∀ (l : List Pos) (st : AState) (q : Pos), q ∉ l →
      (relaxList cfg current l st).1.nodes q = st.nodes q := by
  intro l
  induction l with
  | nil => intro st q _; rfl
  | cons nbr rest ih =>
    intro st q hq
    have hqn : q ≠ nbr := fun h => hq (h ▸ List.mem_cons_self nbr rest)
    have hqr : q ∉ rest := fun h => hq (List.mem_cons_of_mem nbr h)
    rw [relaxList]
    cases hg : oAdd1 ((st.nodes current).gScore) with
    | none => exact ih st q hqr
    | some tg =>
      dsimp only
      by_cases hfire : oLt (some tg) ((st.nodes nbr).gScore) = true
      · rw [if_pos hfire]
        dsimp only
        rw [ih _ q hqr, pushUnlessMem_nodes, setNode_nodes_ne _ _ hqn]
      · rw [if_neg hfire]
        exact ih st q hqr

theorem relaxList_isVisited (cfg : Config) (current : Pos) :
    ∀ (l : List Pos) (st : AState) (q : Pos),
      ((relaxList cfg current l st).1.nodes q).isVisited = (st.nodes q).isVisited := by
  intro l
  induction l with
  | nil => intro st q; rfl
  | cons nbr rest ih =>
    intro st q
    rw [relaxList]
    cases hg : oAdd1 ((st.nodes current).gScore) with
    | none => exact ih st q
    | some tg =>
      dsimp only
      by_cases hfire : oLt (some tg) ((st.nodes nbr).gScore) = true
      · rw [if_pos hfire]
        dsimp only
        rw [ih]
        rw [pushUnlessMem_nodes]
        by_cases hqn : q = nbr
        · subst hqn
          rw [setNode_nodes_self]
          rfl
        · rw [setNode_nodes_ne _ _ hqn]
      · rw [if_neg hfire]
        exact ih st q

theorem relaxList_openSet_shape (cfg : Config) (current : Pos) :
    ∀ (l : List Pos) (st : AState), ∃ extra,
      (relaxList cfg current l st).1.openSet = st.openSet ++ extra ∧
      ∀ q ∈ extra, q ∈ l := by
  intro l
  induction l with
  | nil => intro st; exact ⟨[], by simp [relaxList]⟩
  | cons nbr rest ih =>
    intro st
    rw [relaxList]
    cases hg : oAdd1 ((st.nodes current).gScore) with
    | none =>
      rcases ih st with ⟨extra, he, hm⟩
      exact ⟨extra, he, fun q hq => List.mem_cons_of_mem _ (hm q hq)⟩
    | some tg =>
      dsimp only
      by_cases hfire : oLt (some tg) ((st.nodes nbr).gScore) = true
      · rw [if_pos hfire]
        dsimp only
        rcases ih (pushUnlessMem (setNode st nbr _) nbr) with ⟨extra, he, hm⟩
        rw [he]
        unfold pushUnlessMem
        split
        · exact ⟨extra, by rw [setNode_openSet],
            fun q hq => List.mem_cons_of_mem _ (hm q hq)⟩
        · refine ⟨nbr :: extra, ?_, ?_⟩
          · rw [setNode_openSet]
            simp
          · intro q hq
            rcases List.mem_cons.mp hq with rfl | hq'
            · exact List.mem_cons_self _ _
            · exact List.mem_cons_of_mem _ (hm q hq')
      · rw [if_neg hfire]
        rcases ih st with ⟨extra, he, hm⟩
        exact ⟨extra, he, fun q hq => List.mem_cons_of_mem _ (hm q hq)⟩

theorem relaxList_openSet_mono (cfg : Config) (current : Pos) (l : List Pos)
    (st : AState) {q : Pos} (h : q ∈ st.openSet) :
    q ∈ (relaxList cfg current l st).1.openSet := by
  rcases relaxList_openSet_shape cfg current l st with ⟨extra, he, _⟩
  rw [he]
  exact List.mem_append_left _ h

theorem relaxList_openSet_len (cfg : Config) (current : Pos) :
    ∀ (l : List Pos) (st : AState),
      (relaxList cfg current l st).1.openSet.length ≤ st.openSet.length + l.length := by
  intro l
  induction l with
  | nil => intro st; simp [relaxList]
  | cons nbr rest ih =>
    intro st
    rw [relaxList]
    cases hg : oAdd1 ((st.nodes current).gScore) with
    | none =>
      calc (relaxList cfg current rest st).1.openSet.length
          ≤ st.openSet.length + rest.length := ih st
        _ ≤ st.openSet.length + (nbr :: rest).length := by simp
    | some tg =>
      dsimp only
      by_cases hfire : oLt (some tg) ((st.nodes nbr).gScore) = true
      · rw [if_pos hfire]
        dsimp only
        calc (relaxList cfg current rest _).1.openSet.length
            ≤ (pushUnlessMem (setNode st nbr _) nbr).openSet.length + rest.length := ih _
          _ ≤ (st.openSet.length + 1) + rest.length := by
              have := pushUnlessMem_len (setNode st nbr (relaxedNode current tg
                (heuristic nbr cfg.finish) ((st.nodes nbr).isVisited))) nbr
              rw [setNode_openSet] at this
              omega
          _ = st.openSet.length + (nbr :: rest).length := by simp; omega
      · rw [if_neg hfire]
        calc (relaxList cfg current rest st).1.openSet.length
            ≤ st.openSet.length + rest.length := ih st
          _ ≤ st.openSet.length + (nbr :: rest).length := by simp

theorem relaxList_openSet_nodup (cfg : Config) (current : Pos) :
    ∀ (l : List Pos) (st : AState), st.openSet.Nodup →
      (relaxList cfg current l st).1.openSet.Nodup := by
  intro l
  induction l with
  | nil => intro st h; exact h
  | cons nbr rest ih =>
    intro st h
    rw [relaxList]
    cases hg : oAdd1 ((st.nodes current).gScore) with
    | none => exact ih st h
    | some tg =>
      dsimp only
      by_cases hfire : oLt (some tg) ((st.nodes nbr).gScore) = true
      · rw [if_pos hfire]
        dsimp only
        refine ih _ ?_
        refine pushUnlessMem_nodup _ _ ?_
        rw [setNode_openSet]
        exact h
      · rw [if_neg hfire]
        exact ih st h

theorem relaxList_g_le (cfg : Config) (current : Pos) :
    ∀ (l : List Pos) (st : AState) (q : Pos),
      oLe ((relaxList cfg current l st).1.nodes q).gScore ((st.nodes q).gScore) = true := by
  intro l
  induction l with
  | nil => intro st q; exact oLe_refl _
  | cons nbr rest ih =>
    intro st q
    rw [relaxList]
    cases hg : oAdd1 ((st.nodes current).gScore) with
    | none => exact ih st q
    | some tg =>
      dsimp only
      by_cases hfire : oLt (some tg) ((st.nodes nbr).gScore) = true
      · rw [if_pos hfire]
        dsimp only
        refine oLe_trans (ih _ q) ?_
        rw [pushUnlessMem_nodes]
        by_cases hqn : q = nbr
        · subst hqn
          rw [setNode_nodes_self]
          simpa [relaxedNode] using oLe_of_oLt hfire
        · rw [setNode_nodes_ne _ _ hqn]
          exact oLe_refl _
      · rw [if_neg hfire]
        exact ih st q

theorem relaxList_g_finite (cfg : Config) (current : Pos) (l : List Pos)
    (st : AState) (q : Pos) (h : (st.nodes q).gScore ≠ none) :
    ((relaxList cfg current l st).1.nodes q).gScore ≠ none := by
  intro hc
  have := relaxList_g_le cfg current l st q
  rw [hc] at this
  exact h (oLe_none_left this)

theorem oAdd1_none_iff (a : Option ℕ) : oAdd1 a = none ↔ a = none := by
  cases a <;> simp [oAdd1]

/-- What the neighbour loop does to each listed neighbour: either its state
is untouched because the tentative score did not beat its `gScore`, or it
was rewritten to the relaxed state (predecessor `current`, `gScore` one more
than `current`'s) and it ends up a member of the open set. -/
theorem relaxList_char (cfg : Config) (current : Pos) :
    ∀ (l : List Pos) (st : AState), current ∉ l → l.Nodup →
      ∀ q ∈ l,
        ((relaxList cfg current l st).1.nodes q = st.nodes q ∧
          oLt (oAdd1 ((st.nodes current).gScore)) ((st.nodes q).gScore) = false) ∨
        (∃ gc, (st.nodes current).gScore = some gc ∧
          oLt (some (gc + 1)) ((st.nodes q).gScore) = true ∧
          (relaxList cfg current l st).1.nodes q =
            relaxedNode current (gc + 1) (heuristic q cfg.finish)
              ((st.nodes q).isVisited) ∧
          q ∈ (relaxList cfg current l st).1.openSet) := by
  intro l
  induction l with
  | nil => intro st _ _ q hq; cases hq
  | cons nbr rest ih =>
    intro st hcur hnd q hq
    have hcn : current ≠ nbr := fun h => hcur (h ▸ List.mem_cons_self nbr rest)
    have hcr : current ∉ rest := fun h => hcur (List.mem_cons_of_mem nbr h)
    have hnr : nbr ∉ rest := (List.nodup_cons.mp hnd).1
    have hndr : rest.Nodup := (List.nodup_cons.mp hnd).2
    rw [relaxList]
    cases hg : oAdd1 ((st.nodes current).gScore) with
    | none =>
      have hgc : (st.nodes current).gScore = none := (oAdd1_none_iff _).mp hg
      rcases List.mem_cons.mp hq with rfl | hq'
      · left
        exact ⟨relaxList_nodes_frame cfg current rest st q hnr, by simp [hgc, oAdd1, oLt]⟩
      · rcases ih st hcr hndr q hq' with ⟨h1, h2⟩ | ⟨gc, h1, h2, h3, h4⟩
        · left
          rw [hgc] at h2
          simp only [oAdd1] at h2
          exact ⟨h1, h2⟩
        · right; exact ⟨gc, h1, h2, h3, h4⟩
    | some tg =>
      obtain ⟨gc, hgc, rfl⟩ : ∃ gc, (st.nodes current).gScore = some gc ∧ tg = gc + 1 := by
        cases hx : (st.nodes current).gScore with
        | none => rw [hx] at hg; simp [oAdd1] at hg
        | some gc => rw [hx] at hg; simp [oAdd1] at hg; exact ⟨gc, rfl, hg.symm⟩
      dsimp only
      by_cases hfire : oLt (some (gc + 1)) ((st.nodes nbr).gScore) = true
      · rw [if_pos hfire]
        dsimp only
        set ns := relaxedNode current (gc + 1) (heuristic nbr cfg.finish)
          ((st.nodes nbr).isVisited) with hns
        set st2 := pushUnlessMem (setNode st nbr ns) nbr with hst2
        rcases List.mem_cons.mp hq with rfl | hq'
        · right
          refine ⟨gc, hgc, hfire, ?_, ?_⟩
          · rw [relaxList_nodes_frame cfg current rest st2 q hnr]
            rw [hst2, pushUnlessMem_nodes, setNode_nodes_self]
          · exact relaxList_openSet_mono cfg current rest st2
              (pushUnlessMem_mem_self _ _)
        · have hqn : q ≠ nbr := fun h => hnr (h ▸ hq')
          have e1 : st2.nodes current = st.nodes current := by
            rw [hst2, pushUnlessMem_nodes, setNode_nodes_ne _ _ hcn]
          have e2 : st2.nodes q = st.nodes q := by
            rw [hst2, pushUnlessMem_nodes, setNode_nodes_ne _ _ hqn]
          rcases ih st2 hcr hndr q hq' with ⟨h1, h2⟩ | ⟨gc', h1, h2, h3, h4⟩
          · left
            rw [e1, e2] at h2
            rw [hgc] at h2
            simp only [oAdd1] at h2
            exact ⟨h1.trans e2, h2⟩
          · right
            rw [e1] at h1
            rw [e2] at h2 h3
            exact ⟨gc', h1, h2, h3, h4⟩
      · rw [if_neg hfire]
        rcases List.mem_cons.mp hq with rfl | hq'
        · left
          refine ⟨relaxList_nodes_frame cfg current rest st q hnr, ?_⟩
          simp only [Bool.not_eq_true] at hfire
          exact hfire
        · rcases ih st hcr hndr q hq' with ⟨h1, h2⟩ | ⟨gc', h1, h2, h3, h4⟩
          · left
            rw [hgc] at h2
            simp only [oAdd1] at h2
            exact ⟨h1, h2⟩
          · right; exact ⟨gc', h1, h2, h3, h4⟩

theorem relaxList_mem_finite (cfg : Config) (current : Pos) :
    ∀ (l : List Pos) (st : AState),
      (∀ p ∈ st.openSet, (st.nodes p).gScore ≠ none) →
      ∀ p ∈ (relaxList cfg current l st).1.openSet,
        ((relaxList cfg current l st).1.nodes p).gScore ≠ none := by
  intro l
  induction l with
  | nil => intro st h p hp; exact h p hp
  | cons nbr rest ih =>
    intro st h p hp
    rw [relaxList] at hp ⊢
    cases hg : oAdd1 ((st.nodes current).gScore) with
    | none =>
      rw [hg] at hp
      exact ih st h p hp
    | some tg =>
      rw [hg] at hp
      dsimp only at hp ⊢
      by_cases hfire : oLt (some tg) ((st.nodes nbr).gScore) = true
      · rw [if_pos hfire] at hp ⊢
        dsimp only at hp ⊢
        refine ih _ ?_ p hp
        intro r hr
        rw [pushUnlessMem_nodes]
        rcases (pushUnlessMem_mem_iff _ _ _).mp hr with hr' | rfl
        · rw [setNode_openSet] at hr'
          by_cases hrn : r = nbr
          · subst hrn
            rw [setNode_nodes_self]
            simp [relaxedNode]
          · rw [setNode_nodes_ne _ _ hrn]
            exact h r hr'
        · rw [setNode_nodes_self]
          simp [relaxedNode]
      · rw [if_neg hfire] at hp ⊢
        exact ih st h p hp

theorem relaxList_mem_prop (cfg : Config) (current : Pos) (P : Pos → Prop) :
    ∀ (l : List Pos) (st : AState),
      (∀ p ∈ st.openSet, P p) → (∀ q ∈ l, P q) →
      ∀ p ∈ (relaxList cfg current l st).1.openSet, P p := by
  intro l
  induction l with
  | nil => intro st h _ p hp; exact h p hp
  | cons nbr rest ih =>
    intro st h hl p hp
    rw [relaxList] at hp
    cases hg : oAdd1 ((st.nodes current).gScore) with
    | none =>
      rw [hg] at hp
      exact ih st h (fun q hq => hl q (List.mem_cons_of_mem _ hq)) p hp
    | some tg =>
      rw [hg] at hp
      dsimp only at hp
      by_cases hfire : oLt (some tg) ((st.nodes nbr).gScore) = true
      · rw [if_pos hfire] at hp
        dsimp only at hp
        refine ih _ ?_ (fun q hq => hl q (List.mem_cons_of_mem _ hq)) p hp
        intro r hr
        rcases (pushUnlessMem_mem_iff _ _ _).mp hr with hr' | rfl
        · rw [setNode_openSet] at hr'
          exact h r hr'
        · exact hl r (List.mem_cons_self _ _)
      · rw [if_neg hfire] at hp
        exact ih st h (fun q hq => hl q (List.mem_cons_of_mem _ hq)) p hp

/-! ## Geometry of the neighbour relation -/

theorem mem_neighborList_iff {cfg : Config} {p q : Pos} :
    q ∈ neighborList cfg p ↔
      (0 < p.row ∧ q = ⟨p.row - 1, p.col⟩) ∨
      (p.row < cfg.rows - 1 ∧ q = ⟨p.row + 1, p.col⟩) ∨
      (0 < p.col ∧ q = ⟨p.row, p.col - 1⟩) ∨
      (p.col < cfg.cols - 1 ∧ q = ⟨p.row, p.col + 1⟩) := by
  unfold neighborList
  by_cases h1 : 0 < p.row <;> by_cases h2 : p.row < cfg.rows - 1 <;>
    by_cases h3 : 0 < p.col <;> by_cases h4 : p.col < cfg.cols - 1 <;>
    simp [h1, h2, h3, h4]

theorem heuristic_adj {cfg : Config} {p q : Pos}
    (h : q ∈ neighborList cfg p) : heuristic p q = 1 := by
  rcases mem_neighborList_iff.mp h with ⟨h1, rfl⟩ | ⟨h2, rfl⟩ | ⟨h3, rfl⟩ | ⟨h4, rfl⟩ <;>
    simp [heuristic, natDist] <;> omega

theorem heuristic_comm (p q : Pos) : heuristic p q = heuristic q p := by
  simp [heuristic, natDist]; omega

theorem heuristic_triangle (a b c : Pos) :
    heuristic a c ≤ heuristic a b + heuristic b c := by
  simp [heuristic, natDist]; omega

theorem heuristic_self (p : Pos) : heuristic p p = 0 := by
  simp [heuristic, natDist]

theorem heuristic_eq_zero {p q : Pos} (h : heuristic p q = 0) : p = q := by
  cases p; cases q
  simp [heuristic, natDist] at h
  simp
  omega

theorem self_not_mem_neighborList (cfg : Config) (p : Pos) :
    p ∉ neighborList cfg p := by
  intro h
  have := heuristic_adj h
  rw [heuristic_self] at this
  exact absurd this (by omega)

theorem mem_neighborList_inBounds {cfg : Config} {p q : Pos}
    (hb : inBounds cfg p) (h : q ∈ neighborList cfg p) : inBounds cfg q := by
  obtain ⟨hr, hc⟩ := hb
  rcases mem_neighborList_iff.mp h with ⟨h1, rfl⟩ | ⟨h2, rfl⟩ | ⟨h3, rfl⟩ | ⟨h4, rfl⟩ <;>
    exact ⟨by simp <;> omega, by simp <;> omega⟩

theorem neighborList_nodup (cfg : Config) (p : Pos) :
    (neighborList cfg p).Nodup := by
  unfold neighborList
  by_cases h1 : 0 < p.row <;> by_cases h2 : p.row < cfg.rows - 1 <;>
    by_cases h3 : 0 < p.col <;> by_cases h4 : p.col < cfg.cols - 1 <;>
    simp [h1, h2, h3, h4, Pos.mk.injEq] <;> omega

theorem neighborList_length_le (cfg : Config) (p : Pos) :
    (neighborList cfg p).length ≤ 4 := by
  unfold neighborList
  by_cases h1 : 0 < p.row <;> by_cases h2 : p.row < cfg.rows - 1 <;>
    by_cases h3 : 0 < p.col <;> by_cases h4 : p.col < cfg.cols - 1 <;>
    simp [h1, h2, h3, h4]

theorem mem_getUnvisited {cfg : Config} {st : AState} {p q : Pos}
    (h : q ∈ getUnvisitedNeighbors cfg st p) :
    q ∈ neighborList cfg p ∧ (st.nodes q).isVisited = false := by
  unfold getUnvisitedNeighbors at h
  have := List.mem_filter.mp h
  exact ⟨this.1, by simpa using this.2⟩

theorem getUnvisited_nodup (cfg : Config) (st : AState) (p : Pos) :
    (getUnvisitedNeighbors cfg st p).Nodup :=
  (neighborList_nodup cfg p).filter _

theorem getUnvisited_length_le (cfg : Config) (st : AState) (p : Pos) :
    (getUnvisitedNeighbors cfg st p).length ≤ 4 :=
  le_trans (List.length_filter_le _ _) (neighborList_length_le cfg p)

/-! ## The state invariant of the engine -/

/-- The invariant every state entering a loop iteration satisfies, on an
arbitrary grid (walls allowed).  `cfg.start` is assumed in bounds wherever
the invariant is established from `initState`. -/
structure WF (cfg : Config) (st : AState) : Prop where
  nodup : st.openSet.Nodup
  mem_bounds : ∀ p ∈ st.openSet, inBounds cfg p
  mem_unvisited : ∀ p ∈ st.openSet, (st.nodes p).isVisited = false
  mem_finite : ∀ p ∈ st.openSet, (st.nodes p).gScore ≠ none
  wall_unvisited : ∀ p, cfg.isWall p = true → (st.nodes p).isVisited = false
  visited_bounds : ∀ p, (st.nodes p).isVisited = true → inBounds cfg p
  visited_finite : ∀ p, (st.nodes p).isVisited = true → (st.nodes p).gScore ≠ none
  coherent : ∀ p, (st.nodes p).gScore ≠ none →
      (st.nodes p).distance = (st.nodes p).gScore ∧
      (st.nodes p).hScore = some (heuristic p cfg.finish) ∧
      ∃ g, (st.nodes p).gScore = some g ∧
        (st.nodes p).fScore = some (g + heuristic p cfg.finish)
  untouched : ∀ p, (st.nodes p).gScore = none → st.nodes p = resetNode
  start_g : (st.nodes cfg.start).gScore = some 0
  start_prev : (st.nodes cfg.start).previousNode = none
  lower : ∀ p g, (st.nodes p).gScore = some g → heuristic cfg.start p ≤ g
  prev_link : ∀ p q, (st.nodes p).previousNode = some q →
      (st.nodes q).isVisited = true ∧
      ∃ gq, (st.nodes q).gScore = some gq ∧ (st.nodes p).gScore = some (gq + 1)
  prev_none : ∀ p, (st.nodes p).gScore ≠ none →
      (st.nodes p).previousNode = none → p = cfg.start
  finite_open : ∀ p, cfg.isWall p = false → (st.nodes p).gScore ≠ none →
      (st.nodes p).isVisited = true ∨ p ∈ st.openSet
  reach : ∀ p, (st.nodes p).gScore ≠ none → Reachable cfg p

theorem initState_nodes_start (cfg : Config) :
    (initState cfg).nodes cfg.start =
      { distance := some 0, gScore := some 0,
        hScore := some (heuristic cfg.start cfg.finish),
        fScore := some (0 + heuristic cfg.start cfg.finish),
        isVisited := false, previousNode := none } := by
  simp [initState]

theorem initState_nodes_ne (cfg : Config) {q : Pos} (h : q ≠ cfg.start) :
    (initState cfg).nodes q = resetNode := by
  simp [initState, h]

theorem WF_initState (cfg : Config) (hb : inBounds cfg cfg.start) :
    WF cfg (initState cfg) := by
  have hcases : ∀ q : Pos, (initState cfg).nodes q =
      (if q = cfg.start then
        { distance := some 0, gScore := some 0,
          hScore := some (heuristic cfg.start cfg.finish),
          fScore := some (0 + heuristic cfg.start cfg.finish),
          isVisited := false, previousNode := none }
      else resetNode) := by
    intro q
    by_cases h : q = cfg.start
    · subst h; simp [initState_nodes_start]
    · simp [initState_nodes_ne cfg h, h]
  constructor
  case nodup => simp [initState]
  case mem_bounds =>
    intro p hp
    have : p = cfg.start := by simpa [initState] using hp
    subst this; exact hb
  case mem_unvisited =>
    intro p hp
    have : p = cfg.start := by simpa [initState] using hp
    subst this; rw [initState_nodes_start]
  case mem_finite =>
    intro p hp
    have : p = cfg.start := by simpa [initState] using hp
    subst this; rw [initState_nodes_start]; simp
  case wall_unvisited =>
    intro p _
    rw [hcases p]; split <;> rfl
  case visited_bounds =>
    intro p hv
    rw [hcases p] at hv
    split at hv <;> simp_all [resetNode]
  case visited_finite =>
    intro p hv
    rw [hcases p] at hv
    split at hv <;> simp_all [resetNode]
  case coherent =>
    intro p hg
    rw [hcases p] at hg ⊢
    split at hg
    · next h => subst h; simp
    · simp [resetNode] at hg
  case untouched =>
    intro p hg
    rw [hcases p] at hg ⊢
    split at hg
    · simp at hg
    · next h => rw [if_neg h]
  case start_g => rw [initState_nodes_start]
  case start_prev => rw [initState_nodes_start]
  case lower =>
    intro p g hg
    rw [hcases p] at hg
    split at hg
    · next h => subst h; simp at hg; subst hg; rw [heuristic_self]
    · simp [resetNode] at hg
  case prev_link =>
    intro p q hpq
    rw [hcases p] at hpq
    split at hpq <;> simp_all [resetNode]
  case prev_none =>
    intro p hg _
    rw [hcases p] at hg
    split at hg
    · next h => exact h
    · simp [resetNode] at hg
  case finite_open =>
    intro p _ hg
    rw [hcases p] at hg
    split at hg
    · next h => subst h; right; simp [initState]
    · simp [resetNode] at hg
  case reach =>
    intro p hg
    rw [hcases p] at hg
    split at hg
    · next h => subst h; exact Reachable.start
    · simp [resetNode] at hg

/-- Popping a wall node (the `continue` branch) preserves the invariant:
only the open set shrinks. -/
theorem WF_pop_wall {cfg : Config} {st : AState} {closest : Pos} {rest : List Pos}
    (hwf : WF cfg st) (hs : sortOpen st = closest :: rest)
    (hwall : cfg.isWall closest = true) :
    WF cfg { st with openSet := rest } := by
  have hrest : ∀ q ∈ rest, q ∈ st.openSet := sortOpen_rest_mem hs
  have hnodup : (closest :: rest).Nodup := by
    have := sortOpen_nodup hwf.nodup
    rwa [hs] at this
  constructor
  case nodup => exact (List.nodup_cons.mp hnodup).2
  case mem_bounds => exact fun p hp => hwf.mem_bounds p (hrest p hp)
  case mem_unvisited => exact fun p hp => hwf.mem_unvisited p (hrest p hp)
  case mem_finite => exact fun p hp => hwf.mem_finite p (hrest p hp)
  case wall_unvisited => exact hwf.wall_unvisited
  case visited_bounds => exact hwf.visited_bounds
  case visited_finite => exact hwf.visited_finite
  case coherent => exact hwf.coherent
  case untouched => exact hwf.untouched
  case start_g => exact hwf.start_g
  case start_prev => exact hwf.start_prev
  case lower => exact hwf.lower
  case prev_link => exact hwf.prev_link
  case prev_none => exact hwf.prev_none
  case finite_open =>
    intro p hw hg
    rcases hwf.finite_open p hw hg with hv | hm
    · left; exact hv
    · have hmem : p ∈ closest :: rest := by
        rw [← hs]; exact sortOpen_mem_of_mem hm
      rcases List.mem_cons.mp hmem with rfl | hp
      · rw [hw] at hwall; cases hwall
      · right; exact hp
  case reach => exact hwf.reach

/-- Marking the popped (non-wall, finite-distance) node visited preserves
the invariant. -/
theorem WF_markVisited {cfg : Config} {st : AState} {closest : Pos} {rest : List Pos}
    (hwf : WF cfg st) (hs : sortOpen st = closest :: rest)
    (hwall : cfg.isWall closest = false) :
    WF cfg (setNode { st with openSet := rest } closest
      { st.nodes closest with isVisited := true }) := by
  set st2 := setNode { st with openSet := rest } closest
      { st.nodes closest with isVisited := true } with hst2
  have hrest : ∀ q ∈ rest, q ∈ st.openSet := sortOpen_rest_mem hs
  have hnodup : (closest :: rest).Nodup := by
    have := sortOpen_nodup hwf.nodup
    rwa [hs] at this
  have hcnr : closest ∉ rest := (List.nodup_cons.mp hnodup).1
  have hcmem : closest ∈ st.openSet := sortOpen_mem hs
  have e2 : ∀ q, st2.nodes q =
      if q = closest then { st.nodes closest with isVisited := true }
      else st.nodes q := by
    intro q
    by_cases h : q = closest
    · subst h; rw [hst2, setNode_nodes_self, if_pos rfl]
    · rw [hst2, setNode_nodes_ne _ _ h, if_neg h]
  have eopen : st2.openSet = rest := rfl
  constructor
  case nodup => rw [eopen]; exact (List.nodup_cons.mp hnodup).2
  case mem_bounds =>
    intro p hp; rw [eopen] at hp
    exact hwf.mem_bounds p (hrest p hp)
  case mem_unvisited =>
    intro p hp; rw [eopen] at hp
    have hpn : p ≠ closest := fun h => hcnr (h ▸ hp)
    rw [e2, if_neg hpn]
    exact hwf.mem_unvisited p (hrest p hp)
  case mem_finite =>
    intro p hp; rw [eopen] at hp
    have hpn : p ≠ closest := fun h => hcnr (h ▸ hp)
    rw [e2, if_neg hpn]
    exact hwf.mem_finite p (hrest p hp)
  case wall_unvisited =>
    intro p hw
    rw [e2]
    split
    · next h => subst h; rw [hw] at hwall; cases hwall
    · exact hwf.wall_unvisited p hw
  case visited_bounds =>
    intro p hv
    rw [e2] at hv
    split at hv
    · next h => subst h; exact hwf.mem_bounds p hcmem
    · exact hwf.visited_bounds p hv
  case visited_finite =>
    intro p hv
    rw [e2]
    split
    · next h => subst h; exact hwf.mem_finite p hcmem
    · next h =>
      rw [e2, if_neg h] at hv
      exact hwf.visited_finite p hv
  case coherent =>
    intro p hg
    rw [e2] at hg ⊢
    split at hg <;> rename_i h
    · rw [if_pos h]
      subst h
      exact hwf.coherent p hg
    · rw [if_neg h]
      exact hwf.coherent p hg
  case untouched =>
    intro p hg
    rw [e2] at hg
    split at hg <;> rename_i h
    · subst h
      exact absurd hg (hwf.mem_finite _ hcmem)
    · rw [e2, if_neg h]
      exact hwf.untouched p hg
  case start_g =>
    rw [e2]
    split
    · next h => rw [← h]; exact hwf.start_g
    · exact hwf.start_g
  case start_prev =>
    rw [e2]
    split
    · next h => rw [← h]; exact hwf.start_prev
    · exact hwf.start_prev
  case lower =>
    intro p g hg
    rw [e2] at hg
    split at hg <;> rename_i h
    · subst h; exact hwf.lower p g hg
    · exact hwf.lower p g hg
  case prev_link =>
    intro p q hpq
    have hprev : (st.nodes p).previousNode = some q := by
      rw [e2] at hpq
      split at hpq <;> rename_i h
      · subst h; exact hpq
      · exact hpq
    obtain ⟨hqv, gq, hgq, hgp⟩ := hwf.prev_link p q hprev
    refine ⟨?_, gq, ?_, ?_⟩
    · rw [e2]; split <;> simp_all
    · rw [e2]; split
      · next h => subst h; exact hgq
      · exact hgq
    · rw [e2]; split
      · next h => subst h; exact hgp
      · exact hgp
  case prev_none =>
    intro p hg hp
    have hg' : (st.nodes p).gScore ≠ none := by
      rw [e2] at hg
      split at hg <;> simp_all
    have hp' : (st.nodes p).previousNode = none := by
      rw [e2] at hp
      split at hp <;> simp_all
    exact hwf.prev_none p hg' hp'
  case finite_open =>
    intro p hw hg
    have hg' : (st.nodes p).gScore ≠ none := by
      rw [e2] at hg
      split at hg <;> simp_all
    rcases hwf.finite_open p hw hg' with hv | hm
    · left
      rw [e2]
      split
      · rfl
      · exact hv
    · have hmem : p ∈ closest :: rest := by
        rw [← hs]; exact sortOpen_mem_of_mem hm
      rcases List.mem_cons.mp hmem with rfl | hp
      · left; rw [e2, if_pos rfl]
      · right; rw [eopen]; exact hp
  case reach =>
    intro p hg
    have hg' : (st.nodes p).gScore ≠ none := by
      rw [e2] at hg
      split at hg <;> simp_all
    exact hwf.reach p hg'

/-- The neighbour-relaxation pass preserves the invariant, when run from the
freshly visited `closest` node. -/
theorem WF_relax {cfg : Config} {st2 : AState} {closest : Pos}
    (hwf : WF cfg st2)
    (hv : (st2.nodes closest).isVisited = true)
    (hb : inBounds cfg closest)
    (hwall : cfg.isWall closest = false) :
    WF cfg (relaxList cfg closest (getUnvisitedNeighbors cfg st2 closest) st2).1 := by
  set l := getUnvisitedNeighbors cfg st2 closest with hl
  set st3 := (relaxList cfg closest l st2).1 with hst3
  have hcur : closest ∉ l := by
    intro h
    have := (mem_getUnvisited h).2
    rw [hv] at this; cases this
  have hnd : l.Nodup := getUnvisited_nodup cfg st2 closest
  have hchar := relaxList_char cfg closest l st2 hcur hnd
  have hframe : ∀ q, q ∉ l → st3.nodes q = st2.nodes q :=
    fun q hq => relaxList_nodes_frame cfg closest l st2 q hq
  have hvis : ∀ q, (st3.nodes q).isVisited = (st2.nodes q).isVisited :=
    fun q => relaxList_isVisited cfg closest l st2 q
  have hgfin : ∀ q, (st2.nodes q).gScore ≠ none → (st3.nodes q).gScore ≠ none :=
    fun q h => relaxList_g_finite cfg closest l st2 q h
  have hlb : ∀ q ∈ l, inBounds cfg q := fun q hq =>
    mem_neighborList_inBounds hb (mem_getUnvisited hq).1
  have hmono : ∀ q ∈ st2.openSet, q ∈ st3.openSet := fun q h =>
    relaxList_openSet_mono cfg closest l st2 h
  have hcl : st3.nodes closest = st2.nodes closest := hframe closest hcur
  have hqnotl : ∀ q : Pos, (st2.nodes q).isVisited = true → q ∉ l := by
    intro q hqv hql
    have := (mem_getUnvisited hql).2
    rw [hqv] at this; cases this
  constructor
  case nodup => exact relaxList_openSet_nodup cfg closest l st2 hwf.nodup
  case mem_bounds =>
    exact relaxList_mem_prop cfg closest (inBounds cfg) l st2 hwf.mem_bounds hlb
  case mem_unvisited =>
    intro p hp
    rw [hvis p]
    exact relaxList_mem_prop cfg closest (fun q => (st2.nodes q).isVisited = false)
      l st2 hwf.mem_unvisited (fun q hq => (mem_getUnvisited hq).2) p hp
  case mem_finite =>
    exact relaxList_mem_finite cfg closest l st2 hwf.mem_finite
  case wall_unvisited =>
    intro p hw
    rw [hvis p]
    exact hwf.wall_unvisited p hw
  case visited_bounds =>
    intro p hpv
    rw [hvis p] at hpv
    exact hwf.visited_bounds p hpv
  case visited_finite =>
    intro p hpv
    rw [hvis p] at hpv
    exact hgfin p (hwf.visited_finite p hpv)
  case coherent =>
    intro p hg
    by_cases hpl : p ∈ l
    · rcases hchar p hpl with ⟨heq, _⟩ | ⟨gc, hgc, hlt, heq, _⟩
      · rw [heq] at hg ⊢
        exact hwf.coherent p hg
      · rw [heq]
        exact ⟨rfl, rfl, gc + 1, rfl, rfl⟩
    · rw [hframe p hpl] at hg ⊢
      exact hwf.coherent p hg
  case untouched =>
    intro p hg
    by_cases hpl : p ∈ l
    · rcases hchar p hpl with ⟨heq, _⟩ | ⟨gc, hgc, hlt, heq, _⟩
      · rw [heq] at hg ⊢
        exact hwf.untouched p hg
      · rw [heq] at hg
        simp [relaxedNode] at hg
    · rw [hframe p hpl] at hg ⊢
      exact hwf.untouched p hg
  case start_g =>
    by_cases hpl : cfg.start ∈ l
    · rcases hchar _ hpl with ⟨heq, _⟩ | ⟨gc, hgc, hlt, heq, _⟩
      · rw [heq]; exact hwf.start_g
      · rw [hwf.start_g] at hlt
        simp [oLt] at hlt
    · rw [hframe _ hpl]; exact hwf.start_g
  case start_prev =>
    by_cases hpl : cfg.start ∈ l
    · rcases hchar _ hpl with ⟨heq, _⟩ | ⟨gc, hgc, hlt, heq, _⟩
      · rw [heq]; exact hwf.start_prev
      · rw [hwf.start_g] at hlt
        simp [oLt] at hlt
    · rw [hframe _ hpl]; exact hwf.start_prev
  case lower =>
    intro p g hg
    by_cases hpl : p ∈ l
    · rcases hchar p hpl with ⟨heq, _⟩ | ⟨gc, hgc, hlt, heq, _⟩
      · rw [heq] at hg; exact hwf.lower p g hg
      · rw [heq] at hg
        simp [relaxedNode] at hg
        have h1 : heuristic cfg.start closest ≤ gc := hwf.lower closest gc hgc
        have h2 : heuristic closest p = 1 := heuristic_adj (mem_getUnvisited hpl).1
        have h3 := heuristic_triangle cfg.start closest p
        omega
    · rw [hframe p hpl] at hg; exact hwf.lower p g hg
  case prev_link =>
    intro p q hpq
    by_cases hpl : p ∈ l
    · rcases hchar p hpl with ⟨heq, _⟩ | ⟨gc, hgc, hlt, heq, _⟩
      · rw [heq] at hpq
        obtain ⟨hqv, gq, hgq, hgp⟩ := hwf.prev_link p q hpq
        exact ⟨by rw [hvis q]; exact hqv, gq,
          by rw [hframe q (hqnotl q hqv)]; exact hgq, by rw [heq]; exact hgp⟩
      · rw [heq] at hpq
        simp only [relaxedNode, Option.some.injEq] at hpq
        subst hpq
        exact ⟨by rw [hvis]; exact hv, gc, by rw [hcl]; exact hgc,
          by rw [heq]; rfl⟩
    · have heqp := hframe p hpl
      rw [heqp] at hpq
      obtain ⟨hqv, gq, hgq, hgp⟩ := hwf.prev_link p q hpq
      exact ⟨by rw [hvis q]; exact hqv, gq,
        by rw [hframe q (hqnotl q hqv)]; exact hgq, by rw [heqp]; exact hgp⟩
  case prev_none =>
    intro p hg hpn
    by_cases hpl : p ∈ l
    · rcases hchar p hpl with ⟨heq, _⟩ | ⟨gc, hgc, hlt, heq, _⟩
      · rw [heq] at hg hpn
        exact hwf.prev_none p hg hpn
      · rw [heq] at hpn
        simp [relaxedNode] at hpn
    · rw [hframe p hpl] at hg hpn
      exact hwf.prev_none p hg hpn
  case finite_open =>
    intro p hw hg
    by_cases hpl : p ∈ l
    · rcases hchar p hpl with ⟨heq, _⟩ | ⟨gc, hgc, hlt, heq, hmem⟩
      · rw [heq] at hg
        rcases hwf.finite_open p hw hg with hpv | hpm
        · left; rw [hvis p]; exact hpv
        · right; exact hmono p hpm
      · right; exact hmem
    · rw [hframe p hpl] at hg
      rcases hwf.finite_open p hw hg with hpv | hpm
      · left; rw [hvis p]; exact hpv
      · right; exact hmono p hpm
  case reach =>
    intro p hg
    by_cases hpl : p ∈ l
    · rcases hchar p hpl with ⟨heq, _⟩ | ⟨gc, hgc, hlt, heq, _⟩
      · rw [heq] at hg; exact hwf.reach p hg
      · have hcr : Reachable cfg closest := hwf.reach closest (by rw [hgc]; simp)
        exact Reachable.step hcr hwall (mem_getUnvisited hpl).1
    · rw [hframe p hpl] at hg; exact hwf.reach p hg

/-! ## One iteration of the main loop -/

/-- Every event yielded by the neighbour loop carries the `'open'` tag. -/
theorem relaxList_evs_kind (cfg : Config) (current : Pos) :
    ∀ (l : List Pos) (st : AState) (e : AlgoStep),
      e ∈ (relaxList cfg current l st).2 → e.kind = .openNode := by
  intro l
  induction l with
  | nil => intro st e he; cases he
  | cons nbr rest ih =>
    intro st e he
    rw [relaxList] at he
    cases hg : oAdd1 ((st.nodes current).gScore) with
    | none =>
      rw [hg] at he
      exact ih st e he
    | some tg =>
      rw [hg] at he
      dsimp only at he
      by_cases hfire : oLt (some tg) ((st.nodes nbr).gScore) = true
      · rw [if_pos hfire] at he
        dsimp only at he
        rcases List.mem_cons.mp he with rfl | he'
        · rfl
        · exact ih _ e he'
      · rw [if_neg hfire] at he
        exact ih st e he

/-- Exhaustive case analysis of one `while` iteration: it either halts with
an empty open set, skips a popped wall, fires the defensive `Infinity`
check, finalizes the goal, or expands a regular node. -/
theorem iterate_spec (cfg : Config) (st : AState) :
    (st.openSet = [] ∧ iterate cfg st = .halted [] st .emptied) ∨
    (∃ closest rest, sortOpen st = closest :: rest ∧
      ((cfg.isWall closest = true ∧
        iterate cfg st = .continued [] { st with openSet := rest }) ∨
       (cfg.isWall closest = false ∧
        (st.nodes closest).distance = none ∧
        iterate cfg st = .halted [] { st with openSet := rest } .infinityHalt) ∨
       (cfg.isWall closest = false ∧
        (st.nodes closest).distance ≠ none ∧
        ((closest = cfg.finish ∧
          iterate cfg st = .halted [⟨[closest], .visitedNode⟩]
            (setNode { st with openSet := rest } closest
              { st.nodes closest with isVisited := true }) .goalReached) ∨
         (closest ≠ cfg.finish ∧
          iterate cfg st = .continued
            (⟨[closest], .visitedNode⟩ ::
              (relaxList cfg closest
                (getUnvisitedNeighbors cfg
                  (setNode { st with openSet := rest } closest
                    { st.nodes closest with isVisited := true }) closest)
                (setNode { st with openSet := rest } closest
                  { st.nodes closest with isVisited := true })).2)
            (relaxList cfg closest
              (getUnvisitedNeighbors cfg
                (setNode { st with openSet := rest } closest
                  { st.nodes closest with isVisited := true }) closest)
              (setNode { st with openSet := rest } closest
                { st.nodes closest with isVisited := true })).1))))) := by
  cases hs : sortOpen st with
  | nil =>
    left
    refine ⟨(sortOpen_nil_iff st).mp hs, ?_⟩
    rw [iterate, hs]
  | cons closest rest =>
    right
    refine ⟨closest, rest, rfl, ?_⟩
    by_cases hw : cfg.isWall closest = true
    · left
      refine ⟨hw, ?_⟩
      rw [iterate, hs]
      dsimp only
      rw [if_pos hw]
    · have hw' : cfg.isWall closest = false := by simpa using hw
      right
      by_cases hd : (st.nodes closest).distance = none
      · left
        refine ⟨hw', hd, ?_⟩
        rw [iterate, hs]
        dsimp only
        rw [if_neg hw, if_pos hd]
      · right
        refine ⟨hw', hd, ?_⟩
        by_cases hf : closest = cfg.finish
        · left
          refine ⟨hf, ?_⟩
          rw [iterate, hs]
          dsimp only
          rw [if_neg hw, if_neg hd, if_pos hf]
        · right
          refine ⟨hf, ?_⟩
          rw [iterate, hs]
          dsimp only
          rw [if_neg hw, if_neg hd, if_neg hf]

/-- Under the invariant the popped node's `distance` is finite: the
defensive `Infinity` check cannot fire. -/
theorem WF_no_infinity {cfg : Config} {st : AState} {closest : Pos} {rest : List Pos}
    (hwf : WF cfg st) (hs : sortOpen st = closest :: rest) :
    (st.nodes closest).distance ≠ none := by
  have hmem := sortOpen_mem hs
  have hg := hwf.mem_finite closest hmem
  have hcoh := (hwf.coherent closest hg).1
  rw [hcoh]
  exact hg

theorem WF_iterate_state {cfg : Config} {st : AState} (hwf : WF cfg st) :
    WF cfg (iterate cfg st).state := by
  rcases iterate_spec cfg st with ⟨-, he⟩ | ⟨closest, rest, hs, hcase⟩
  · rw [he]; exact hwf
  · rcases hcase with ⟨hw, he⟩ | ⟨hw, hd, he⟩ | ⟨hw, hd, hrest⟩
    · rw [he]; exact WF_pop_wall hwf hs hw
    · exact absurd hd (WF_no_infinity hwf hs)
    · rcases hrest with ⟨hf, he⟩ | ⟨hf, he⟩
      · rw [he]; exact WF_markVisited hwf hs hw
      · rw [he]
        exact WF_relax (WF_markVisited hwf hs hw) (by rw [setNode_nodes_self])
          (hwf.mem_bounds closest (sortOpen_mem hs)) hw

theorem iterate_visited_mono {cfg : Config} {st : AState} {p : Pos}
    (hv : (st.nodes p).isVisited = true) :
    ((iterate cfg st).state.nodes p).isVisited = true := by
  rcases iterate_spec cfg st with ⟨-, he⟩ | ⟨closest, rest, hs, hcase⟩
  · rw [he]; exact hv
  · rcases hcase with ⟨hw, he⟩ | ⟨hw, hd, he⟩ | ⟨hw, hd, ⟨hf, he⟩ | ⟨hf, he⟩⟩
    · rw [he]; exact hv
    · rw [he]; exact hv
    · rw [he]
      show ((setNode _ closest _).nodes p).isVisited = true
      by_cases hpc : p = closest
      · subst hpc; rw [setNode_nodes_self]
      · rw [setNode_nodes_ne _ _ hpc]; exact hv
    · rw [he]
      show ((relaxList _ _ _ _).1.nodes p).isVisited = true
      rw [relaxList_isVisited]
      by_cases hpc : p = closest
      · subst hpc; rw [setNode_nodes_self]
      · rw [setNode_nodes_ne _ _ hpc]; exact hv

/-- Once a node is visited, one further iteration leaves its whole search
state untouched (the frame property behind claim C10). -/
theorem iterate_frame {cfg : Config} {st : AState} {p : Pos} (hwf : WF cfg st)
    (hv : (st.nodes p).isVisited = true) :
    (iterate cfg st).state.nodes p = st.nodes p := by
  rcases iterate_spec cfg st with ⟨-, he⟩ | ⟨closest, rest, hs, hcase⟩
  · rw [he]; rfl
  · have hpc : p ≠ closest := by
      intro h
      subst h
      rw [hwf.mem_unvisited p (sortOpen_mem hs)] at hv
      cases hv
    rcases hcase with ⟨hw, he⟩ | ⟨hw, hd, he⟩ | ⟨hw, hd, ⟨hf, he⟩ | ⟨hf, he⟩⟩
    · rw [he]; rfl
    · rw [he]; rfl
    · rw [he]
      show (setNode _ closest _).nodes p = st.nodes p
      rw [setNode_nodes_ne _ _ hpc]
    · rw [he]
      show (relaxList _ _ _ _).1.nodes p = st.nodes p
      have hst2 : (setNode { st with openSet := rest } closest
          { st.nodes closest with isVisited := true }).nodes p = st.nodes p :=
        setNode_nodes_ne _ _ hpc
      have hpnl : p ∉ getUnvisitedNeighbors cfg
          (setNode { st with openSet := rest } closest
            { st.nodes closest with isVisited := true }) closest := by
        intro hmem
        have := (mem_getUnvisited hmem).2
        rw [hst2, hv] at this
        cases this
      rw [relaxList_nodes_frame _ _ _ _ _ hpnl, hst2]

/-- One iteration never increases any node's `gScore` (and a finite score
stays finite). -/
theorem iterate_g_le (cfg : Config) (st : AState) (p : Pos) :
    oLe ((iterate cfg st).state.nodes p).gScore ((st.nodes p).gScore) = true := by
  rcases iterate_spec cfg st with ⟨-, he⟩ | ⟨closest, rest, hs, hcase⟩
  · rw [he]; exact oLe_refl _
  · rcases hcase with ⟨hw, he⟩ | ⟨hw, hd, he⟩ | ⟨hw, hd, ⟨hf, he⟩ | ⟨hf, he⟩⟩
    · rw [he]; exact oLe_refl _
    · rw [he]; exact oLe_refl _
    · rw [he]
      show oLe (((setNode _ closest _).nodes p).gScore) _ = true
      by_cases hpc : p = closest
      · subst hpc; rw [setNode_nodes_self]; exact oLe_refl _
      · rw [setNode_nodes_ne _ _ hpc]; exact oLe_refl _
    · rw [he]
      show oLe (((relaxList _ _ _ _).1.nodes p).gScore) _ = true
      have hst2 : ((setNode { st with openSet := rest } closest
          { st.nodes closest with isVisited := true }).nodes p).gScore =
          (st.nodes p).gScore := by
        by_cases hpc : p = closest
        · subst hpc; rw [setNode_nodes_self]
        · rw [setNode_nodes_ne _ _ hpc]
      rw [← hst2]
      exact relaxList_g_le _ _ _ _ _

/-- When one iteration does change a node's `gScore`, the new value is
strictly smaller (the relaxation guard `tentativeG < neighbor.gScore`). -/
theorem iterate_g_strict (cfg : Config) (st : AState) (p : Pos)
    (hne : ((iterate cfg st).state.nodes p).gScore ≠ (st.nodes p).gScore) :
    oLt ((iterate cfg st).state.nodes p).gScore ((st.nodes p).gScore) = true := by
  rcases iterate_spec cfg st with ⟨-, he⟩ | ⟨closest, rest, hs, hcase⟩
  · rw [he] at hne; exact absurd rfl hne
  · rcases hcase with ⟨hw, he⟩ | ⟨hw, hd, he⟩ | ⟨hw, hd, ⟨hf, he⟩ | ⟨hf, he⟩⟩
    · rw [he] at hne; exact absurd rfl hne
    · rw [he] at hne; exact absurd rfl hne
    · rw [he] at hne ⊢
      by_cases hpc : p = closest
      · subst hpc
        rw [show ((IterResult.halted _ (setNode _ p _) _).state.nodes p) =
            { st.nodes p with isVisited := true } from setNode_nodes_self _ _ _] at hne
        exact absurd rfl hne
      · rw [show ((IterResult.halted _ (setNode { st with openSet := rest } closest
            { st.nodes closest with isVisited := true }) _).state.nodes p) =
            st.nodes p from setNode_nodes_ne _ _ hpc] at hne
        exact absurd rfl hne
    · rw [he] at hne ⊢
      set st2 := setNode { st with openSet := rest } closest
        { st.nodes closest with isVisited := true } with hst2def
      set l := getUnvisitedNeighbors cfg st2 closest with hldef
      have hst2 : ∀ q, (st2.nodes q).gScore = (st.nodes q).gScore := by
        intro q
        by_cases hqc : q = closest
        · subst hqc; rw [hst2def, setNode_nodes_self]
        · rw [hst2def, setNode_nodes_ne _ _ hqc]
      have hcur : closest ∉ l := by
        intro hmem
        have := (mem_getUnvisited hmem).2
        rw [hst2def, setNode_nodes_self] at this
        cases this
      have hnd : l.Nodup := getUnvisited_nodup cfg st2 closest
      show oLt (((relaxList cfg closest l st2).1.nodes p).gScore) _ = true
      by_cases hpl : p ∈ l
      · rcases relaxList_char cfg closest l st2 hcur hnd p hpl with
          ⟨heq, -⟩ | ⟨gc, hgc, hlt, heq, -⟩
        · rw [show ((IterResult.continued _ (relaxList cfg closest l st2).1).state.nodes p)
              = st2.nodes p from heq, hst2 p] at hne
          exact absurd rfl hne
        · rw [heq]
          rw [hst2 p] at hlt
          exact hlt
      · rw [show ((IterResult.continued _ (relaxList cfg closest l st2).1).state.nodes p)
            = st2.nodes p from relaxList_nodes_frame cfg closest l st2 p hpl,
            hst2 p] at hne
        exact absurd rfl hne

/-! ## Termination of the main loop -/

theorem posOf_eq_iff {rc : ℕ × ℕ} {p : Pos} :
    (⟨rc.1, rc.2⟩ : Pos) = p ↔ rc = (p.row, p.col) := by
  cases rc; cases p
  simp [Pos.mk.injEq, Prod.ext_iff]

/-- The number of in-bounds cells not yet visited. -/
def unvisitedCount (cfg : Config) (st : AState) : ℕ :=
  ((Finset.range cfg.rows ×ˢ Finset.range cfg.cols).filter
    (fun rc => (st.nodes ⟨rc.1, rc.2⟩).isVisited = false)).card

/-- A strictly decreasing bound on the iterations the loop can still make:
each iteration either visits a fresh in-bounds cell (growing the open set by
at most four) or discards a popped wall. -/
def fuelMeasure (cfg : Config) (st : AState) : ℕ :=
  5 * unvisitedCount cfg st + st.openSet.length

theorem iterate_measure {cfg : Config} {st : AState} {evs : List AlgoStep}
    {st' : AState} (hwf : WF cfg st)
    (he : iterate cfg st = .continued evs st') :
    fuelMeasure cfg st' < fuelMeasure cfg st := by
  have hlen : (sortOpen st).length = st.openSet.length := (sortOpen_perm st).length_eq
  rcases iterate_spec cfg st with ⟨-, he'⟩ | ⟨closest, rest, hs, hcase⟩
  · rw [he'] at he; cases he
  · have hrlen : rest.length + 1 = st.openSet.length := by
      rw [← hlen, hs]
      simp
    rcases hcase with ⟨hw, he'⟩ | ⟨hw, hd, he'⟩ | ⟨hw, hd, ⟨hf, he'⟩ | ⟨hf, he'⟩⟩
    · rw [he'] at he
      injection he with h1 h2
      subst h2
      have hcount : unvisitedCount cfg { st with openSet := rest } =
          unvisitedCount cfg st := rfl
      simp only [fuelMeasure, hcount]
      omega
    · rw [he'] at he; cases he
    · rw [he'] at he; cases he
    · rw [he'] at he
      injection he with h1 h2
      subst h2
      set st2 := setNode { st with openSet := rest } closest
        { st.nodes closest with isVisited := true } with hst2def
      set l := getUnvisitedNeighbors cfg st2 closest with hldef
      have hbnd := hwf.mem_bounds closest (sortOpen_mem hs)
      have hunv := hwf.mem_unvisited closest (sortOpen_mem hs)
      have hmemf : (closest.row, closest.col) ∈
          (Finset.range cfg.rows ×ˢ Finset.range cfg.cols).filter
            (fun rc => (st.nodes ⟨rc.1, rc.2⟩).isVisited = false) := by
        rw [Finset.mem_filter, Finset.mem_product]
        exact ⟨⟨Finset.mem_range.mpr hbnd.1, Finset.mem_range.mpr hbnd.2⟩, hunv⟩
      have hc1 : unvisitedCount cfg (relaxList cfg closest l st2).1 =
          unvisitedCount cfg st2 := by
        unfold unvisitedCount
        congr 1
        apply Finset.filter_congr
        intro rc _
        rw [relaxList_isVisited]
      have hc2 : unvisitedCount cfg st2 + 1 = unvisitedCount cfg st := by
        unfold unvisitedCount
        have hers : (Finset.range cfg.rows ×ˢ Finset.range cfg.cols).filter
            (fun rc => (st2.nodes ⟨rc.1, rc.2⟩).isVisited = false) =
            ((Finset.range cfg.rows ×ˢ Finset.range cfg.cols).filter
              (fun rc => (st.nodes ⟨rc.1, rc.2⟩).isVisited = false)).erase
              (closest.row, closest.col) := by
          ext rc
          rw [Finset.mem_erase, Finset.mem_filter, Finset.mem_filter]
          constructor
          · rintro ⟨hin, hunv2⟩
            by_cases hrc : (⟨rc.1, rc.2⟩ : Pos) = closest
            · rw [hst2def, hrc, setNode_nodes_self] at hunv2
              cases hunv2
            · rw [hst2def, setNode_nodes_ne _ _ hrc] at hunv2
              refine ⟨?_, hin, hunv2⟩
              intro h
              exact hrc (posOf_eq_iff.mpr h)
          · rintro ⟨hne, hin, hunv2⟩
            have hrc : (⟨rc.1, rc.2⟩ : Pos) ≠ closest := fun h =>
              hne (posOf_eq_iff.mp h)
            rw [hst2def, setNode_nodes_ne _ _ hrc]
            exact ⟨hin, hunv2⟩
        rw [hers, Finset.card_erase_of_mem hmemf]
        have hpos : 0 < ((Finset.range cfg.rows ×ˢ Finset.range cfg.cols).filter
            (fun rc => (st.nodes ⟨rc.1, rc.2⟩).isVisited = false)).card :=
          Finset.card_pos.mpr ⟨_, hmemf⟩
        omega
      have hlen2 : (relaxList cfg closest l st2).1.openSet.length ≤
          rest.length + 4 := by
        have h1 := relaxList_openSet_len cfg closest l st2
        have h2 : st2.openSet.length = rest.length := rfl
        have h3 : l.length ≤ 4 := getUnvisited_length_le cfg st2 closest
        omega
      simp only [fuelMeasure]
      omega

/-! ## Runs of the whole loop -/

theorem iterate_not_infinity {cfg : Config} {st : AState} {evs : List AlgoStep}
    {st' : AState} (hwf : WF cfg st) :
    iterate cfg st ≠ .halted evs st' .infinityHalt := by
  intro he
  rcases iterate_spec cfg st with ⟨-, he'⟩ | ⟨closest, rest, hs, hcase⟩
  · rw [he'] at he
    injection he with h1 h2 h3
    cases h3
  · rcases hcase with ⟨hw, he'⟩ | ⟨hw, hd, he'⟩ | ⟨hw, hd, ⟨hf, he'⟩ | ⟨hf, he'⟩⟩
    · rw [he'] at he; cases he
    · exact absurd hd (WF_no_infinity hwf hs)
    · rw [he'] at he
      injection he with h1 h2 h3
      cases h3
    · rw [he'] at he; cases he

theorem iterate_emptied {cfg : Config} {st : AState} {evs : List AlgoStep}
    {st' : AState} (he : iterate cfg st = .halted evs st' .emptied) :
    st' = st ∧ st.openSet = [] ∧ evs = [] := by
  rcases iterate_spec cfg st with ⟨hop, he'⟩ | ⟨closest, rest, hs, hcase⟩
  · rw [he'] at he
    injection he with h1 h2 h3
    exact ⟨h2.symm, hop, h1.symm⟩
  · rcases hcase with ⟨hw, he'⟩ | ⟨hw, hd, he'⟩ | ⟨hw, hd, ⟨hf, he'⟩ | ⟨hf, he'⟩⟩
    · rw [he'] at he; cases he
    · rw [he'] at he
      injection he with h1 h2 h3
      cases h3
    · rw [he'] at he
      injection he with h1 h2 h3
      cases h3
    · rw [he'] at he; cases he

theorem iterate_goal {cfg : Config} {st : AState} {evs : List AlgoStep}
    {st' : AState} (he : iterate cfg st = .halted evs st' .goalReached) :
    ∃ rest, sortOpen st = cfg.finish :: rest ∧
      cfg.isWall cfg.finish = false ∧
      evs = [⟨[cfg.finish], .visitedNode⟩] ∧
      st' = setNode { st with openSet := rest } cfg.finish
        { st.nodes cfg.finish with isVisited := true } := by
  rcases iterate_spec cfg st with ⟨-, he'⟩ | ⟨closest, rest, hs, hcase⟩
  · rw [he'] at he
    injection he with h1 h2 h3
    cases h3
  · rcases hcase with ⟨hw, he'⟩ | ⟨hw, hd, he'⟩ | ⟨hw, hd, ⟨hf, he'⟩ | ⟨hf, he'⟩⟩
    · rw [he'] at he; cases he
    · rw [he'] at he
      injection he with h1 h2 h3
      cases h3
    · subst hf
      rw [he'] at he
      injection he with h1 h2 h3
      exact ⟨rest, hs, hw, h1.symm, h2.symm⟩
    · rw [he'] at he; cases he

theorem loop_wf {cfg : Config} :
    ∀ (fuel : ℕ) (st : AState), WF cfg st → WF cfg (loop cfg fuel st).2.1 := by
  intro fuel
  induction fuel with
  | zero => intro st hwf; exact hwf
  | succ fuel ih =>
    intro st hwf
    rw [loop]
    cases hit : iterate cfg st with
    | continued evs st' =>
      dsimp only
      have hwf' := WF_iterate_state hwf
      rw [hit] at hwf'
      exact ih st' hwf'
    | halted evs st' k =>
      have hwf' := WF_iterate_state hwf
      rw [hit] at hwf'
      exact hwf'

theorem loop_term {cfg : Config} :
    ∀ (fuel : ℕ) (st : AState), WF cfg st → fuelMeasure cfg st < fuel →
      (loop cfg fuel st).2.2 ≠ none := by
  intro fuel
  induction fuel with
  | zero => intro st _ h; omega
  | succ fuel ih =>
    intro st hwf hm
    rw [loop]
    cases hit : iterate cfg st with
    | continued evs st' =>
      dsimp only
      have hwf' := WF_iterate_state hwf
      rw [hit] at hwf'
      have hdec := iterate_measure hwf hit
      exact ih st' hwf' (by omega)
    | halted evs st' k => simp

theorem loop_no_infinity {cfg : Config} :
    ∀ (fuel : ℕ) (st : AState), WF cfg st →
      (loop cfg fuel st).2.2 ≠ some .infinityHalt := by
  intro fuel
  induction fuel with
  | zero => intro st _; simp [loop]
  | succ fuel ih =>
    intro st hwf
    rw [loop]
    cases hit : iterate cfg st with
    | continued evs st' =>
      dsimp only
      have hwf' := WF_iterate_state hwf
      rw [hit] at hwf'
      exact ih st' hwf'
    | halted evs st' k =>
      dsimp only
      intro hk
      have : k = TermKind.infinityHalt := by
        injection hk
      subst this
      exact iterate_not_infinity hwf hit

theorem loop_emptied_openSet {cfg : Config} :
    ∀ (fuel : ℕ) (st : AState),
      (loop cfg fuel st).2.2 = some .emptied →
      (loop cfg fuel st).2.1.openSet = [] := by
  intro fuel
  induction fuel with
  | zero => intro st h; simp [loop] at h
  | succ fuel ih =>
    intro st hk
    rw [loop] at hk ⊢
    cases hit : iterate cfg st with
    | continued evs st' =>
      rw [hit] at hk
      dsimp only at hk ⊢
      exact ih st' hk
    | halted evs st' k =>
      rw [hit] at hk
      dsimp only at hk ⊢
      have : k = TermKind.emptied := by injection hk
      subst this
      obtain ⟨rfl, hop, -⟩ := iterate_emptied hit
      exact hop

theorem loop_visited_mono {cfg : Config} :
    ∀ (fuel : ℕ) (st : AState) (p : Pos),
      (st.nodes p).isVisited = true →
      ((loop cfg fuel st).2.1.nodes p).isVisited = true := by
  intro fuel
  induction fuel with
  | zero => intro st p h; exact h
  | succ fuel ih =>
    intro st p hv
    rw [loop]
    cases hit : iterate cfg st with
    | continued evs st' =>
      dsimp only
      refine ih st' p ?_
      have := @iterate_visited_mono cfg st p hv
      rwa [hit] at this
    | halted evs st' k =>
      have := @iterate_visited_mono cfg st p hv
      rwa [hit] at this

theorem loop_frame {cfg : Config} :
    ∀ (fuel : ℕ) (st : AState) (p : Pos), WF cfg st →
      (st.nodes p).isVisited = true →
      (loop cfg fuel st).2.1.nodes p = st.nodes p := by
  intro fuel
  induction fuel with
  | zero => intro st p _ _; rfl
  | succ fuel ih =>
    intro st p hwf hv
    rw [loop]
    cases hit : iterate cfg st with
    | continued evs st' =>
      dsimp only
      have hwf' := WF_iterate_state hwf
      rw [hit] at hwf'
      have hfr := iterate_frame hwf hv
      rw [hit] at hfr
      dsimp only [IterResult.state] at hwf' hfr
      rw [ih st' p hwf' (by rw [hfr]; exact hv)]
      exact hfr
    | halted evs st' k =>
      have hfr := iterate_frame hwf hv
      rwa [hit] at hfr

theorem loop_g_le {cfg : Config} :
    ∀ (fuel : ℕ) (st : AState) (p : Pos),
      oLe ((loop cfg fuel st).2.1.nodes p).gScore ((st.nodes p).gScore) = true := by
  intro fuel
  induction fuel with
  | zero => intro st p; exact oLe_refl _
  | succ fuel ih =>
    intro st p
    rw [loop]
    cases hit : iterate cfg st with
    | continued evs st' =>
      dsimp only
      refine oLe_trans (ih st' p) ?_
      have := iterate_g_le cfg st p
      rwa [hit] at this
    | halted evs st' k =>
      have := iterate_g_le cfg st p
      rwa [hit] at this

/-- What one iteration's `'visited'` event says about the node it names:
not a wall, finite `gScore` at the moment of visitation, and marked visited
in the resulting state. -/
theorem iterate_visited_ev {cfg : Config} {st : AState} (hwf : WF cfg st) :
    ∀ e ∈ (iterate cfg st).evs, e.kind = .visitedNode →
      ∀ p ∈ e.nodes, cfg.isWall p = false ∧ (st.nodes p).gScore ≠ none ∧
        ((iterate cfg st).state.nodes p).isVisited = true := by
  rcases iterate_spec cfg st with ⟨-, he⟩ | ⟨closest, rest, hs, hcase⟩
  · rw [he]; intro e he'; cases he'
  · rcases hcase with ⟨hw, he⟩ | ⟨hw, hd, he⟩ | ⟨hw, hd, ⟨hf, he⟩ | ⟨hf, he⟩⟩
    · rw [he]; intro e he'; cases he'
    · rw [he]; intro e he'; cases he'
    · rw [he]
      intro e he' hkind p hp
      have he2 : e = ⟨[closest], .visitedNode⟩ := by
        rcases List.mem_cons.mp he' with h | h
        · exact h
        · cases h
      subst he2
      have hp2 : p = closest := by
        rcases List.mem_cons.mp hp with h | h
        · exact h
        · cases h
      subst hp2
      exact ⟨hw, hwf.mem_finite p (sortOpen_mem hs),
        by show ((setNode _ p _).nodes p).isVisited = true
           rw [setNode_nodes_self]⟩
    · rw [he]
      intro e he' hkind p hp
      rcases List.mem_cons.mp he' with h | h
      · subst h
        have hp2 : p = closest := by
          rcases List.mem_cons.mp hp with h | h
          · exact h
          · cases h
        subst hp2
        refine ⟨hw, hwf.mem_finite p (sortOpen_mem hs), ?_⟩
        show ((relaxList _ _ _ _).1.nodes p).isVisited = true
        rw [relaxList_isVisited, setNode_nodes_self]
      · have := relaxList_evs_kind cfg closest _ _ e h
        rw [hkind] at this
        cases this

theorem loop_visited_ev {cfg : Config} :
    ∀ (fuel : ℕ) (st : AState), WF cfg st →
      ∀ e ∈ (loop cfg fuel st).1, e.kind = .visitedNode →
        ∀ p ∈ e.nodes, cfg.isWall p = false ∧
          ((loop cfg fuel st).2.1.nodes p).isVisited = true := by
  intro fuel
  induction fuel with
  | zero => intro st _ e he; simp [loop] at he
  | succ fuel ih =>
    intro st hwf e he hkind p hp
    rw [loop] at he ⊢
    cases hit : iterate cfg st with
    | continued evs st' =>
      rw [hit] at he
      dsimp only at he ⊢
      have hwf' := WF_iterate_state hwf
      rw [hit] at hwf'
      rcases List.mem_append.mp he with h | h
      · have hev := iterate_visited_ev hwf e (by rw [hit]; exact h) hkind p hp
        rw [hit] at hev
        exact ⟨hev.1, loop_visited_mono fuel st' p hev.2.2⟩
      · exact ih st' hwf' e h hkind p hp
    | halted evs st' k =>
      rw [hit] at he
      dsimp only at he ⊢
      have hev := iterate_visited_ev hwf e (by rw [hit]; exact he) hkind p hp
      rw [hit] at hev
      exact ⟨hev.1, hev.2.2⟩

/-- A run that ends with the goal popped: the final trace contains the
goal's `'visited'` event and the final state has the goal visited. -/
theorem loop_goal {cfg : Config} :
    ∀ (fuel : ℕ) (st : AState),
      (loop cfg fuel st).2.2 = some .goalReached →
      (AlgoStep.mk [cfg.finish] .visitedNode) ∈ (loop cfg fuel st).1 ∧
      ((loop cfg fuel st).2.1.nodes cfg.finish).isVisited = true := by
  intro fuel
  induction fuel with
  | zero => intro st h; simp [loop] at h
  | succ fuel ih =>
    intro st hk
    rw [loop] at hk ⊢
    cases hit : iterate cfg st with
    | continued evs st' =>
      rw [hit] at hk
      dsimp only at hk ⊢
      obtain ⟨htr, hvis⟩ := ih st' hk
      exact ⟨List.mem_append_right _ htr, hvis⟩
    | halted evs st' k =>
      rw [hit] at hk
      dsimp only at hk ⊢
      have : k = TermKind.goalReached := by injection hk
      subst this
      obtain ⟨rest, hs, hw, hevs, hst'⟩ := iterate_goal hit
      subst hevs
      refine ⟨List.mem_cons_self _ _, ?_⟩
      rw [hst', setNode_nodes_self]

theorem astarRun_eq (cfg : Config) (fuel : ℕ) :
    astarRun cfg fuel =
      (⟨[cfg.start], .openNode⟩ :: (loop cfg fuel (initState cfg)).1,
       (loop cfg fuel (initState cfg)).2.1,
       (loop cfg fuel (initState cfg)).2.2) := rfl

theorem initState_unvisited (cfg : Config) (p : Pos) :
    ((initState cfg).nodes p).isVisited = false := by
  by_cases h : p = cfg.start
  · subst h; rw [initState_nodes_start]
  · rw [initState_nodes_ne cfg h]; rfl

/-- Walls never get marked visited: the pop loop skips them before the
marking statement, and nothing else writes `isVisited`.  This needs no
further invariant. -/
theorem iterate_wall_unvisited {cfg : Config} {st : AState}
    (h : ∀ p, cfg.isWall p = true → (st.nodes p).isVisited = false) :
    ∀ p, cfg.isWall p = true →
      ((iterate cfg st).state.nodes p).isVisited = false := by
  intro p hw
  rcases iterate_spec cfg st with ⟨-, he⟩ | ⟨closest, rest, hs, hcase⟩
  · rw [he]; exact h p hw
  · rcases hcase with ⟨hww, he⟩ | ⟨hww, hd, he⟩ | ⟨hww, hd, ⟨hf, he⟩ | ⟨hf, he⟩⟩
    · rw [he]; exact h p hw
    · rw [he]; exact h p hw
    · rw [he]
      show ((setNode _ closest _).nodes p).isVisited = false
      have hpc : p ≠ closest := by
        intro hx; subst hx; rw [hw] at hww; cases hww
      rw [setNode_nodes_ne _ _ hpc]
      exact h p hw
    · rw [he]
      show ((relaxList _ _ _ _).1.nodes p).isVisited = false
      rw [relaxList_isVisited]
      have hpc : p ≠ closest := by
        intro hx; subst hx; rw [hw] at hww; cases hww
      rw [setNode_nodes_ne _ _ hpc]
      exact h p hw

theorem loop_wall_unvisited {cfg : Config} :
    ∀ (fuel : ℕ) (st : AState),
      (∀ p, cfg.isWall p = true → (st.nodes p).isVisited = false) →
      ∀ p, cfg.isWall p = true →
        ((loop cfg fuel st).2.1.nodes p).isVisited = false := by
  intro fuel
  induction fuel with
  | zero => intro st h p hw; exact h p hw
  | succ fuel ih =>
    intro st h p hw
    rw [loop]
    cases hit : iterate cfg st with
    | continued evs st' =>
      dsimp only
      refine ih st' ?_ p hw
      intro q hq
      have := iterate_wall_unvisited h q hq
      rwa [hit] at this
    | halted evs st' k =>
      have := iterate_wall_unvisited h p hw
      rwa [hit] at this

/-- Visited-kind events name only non-wall nodes; no invariant needed. -/
theorem iterate_visited_ev_wall {cfg : Config} {st : AState} :
    ∀ e ∈ (iterate cfg st).evs, e.kind = .visitedNode →
      ∀ p ∈ e.nodes, cfg.isWall p = false := by
  rcases iterate_spec cfg st with ⟨-, he⟩ | ⟨closest, rest, hs, hcase⟩
  · rw [he]; intro e he'; cases he'
  · rcases hcase with ⟨hw, he⟩ | ⟨hw, hd, he⟩ | ⟨hw, hd, ⟨hf, he⟩ | ⟨hf, he⟩⟩
    · rw [he]; intro e he'; cases he'
    · rw [he]; intro e he'; cases he'
    · rw [he]
      intro e he' hkind p hp
      have he2 : e = ⟨[closest], .visitedNode⟩ := by
        rcases List.mem_cons.mp he' with hx | hx
        · exact hx
        · cases hx
      subst he2
      have hp2 : p = closest := by
        rcases List.mem_cons.mp hp with hx | hx
        · exact hx
        · cases hx
      subst hp2
      exact hw
    · rw [he]
      intro e he' hkind p hp
      rcases List.mem_cons.mp he' with hx | hx
      · subst hx
        have hp2 : p = closest := by
          rcases List.mem_cons.mp hp with hx | hx
          · exact hx
          · cases hx
        subst hp2
        exact hw
      · have := relaxList_evs_kind cfg closest _ _ e hx
        rw [hkind] at this
        cases this

theorem loop_visited_ev_wall {cfg : Config} :
    ∀ (fuel : ℕ) (st : AState),
      ∀ e ∈ (loop cfg fuel st).1, e.kind = .visitedNode →
        ∀ p ∈ e.nodes, cfg.isWall p = false := by
  intro fuel
  induction fuel with
  | zero => intro st e he; simp [loop] at he
  | succ fuel ih =>
    intro st e he hkind p hp
    rw [loop] at he
    cases hit : iterate cfg st with
    | continued evs st' =>
      rw [hit] at he
      dsimp only at he
      rcases List.mem_append.mp he with h | h
      · exact iterate_visited_ev_wall e (by rw [hit]; exact h) hkind p hp
      · exact ih st' e h hkind p hp
    | halted evs st' k =>
      rw [hit] at he
      dsimp only at he
      exact iterate_visited_ev_wall e (by rw [hit]; exact he) hkind p hp

theorem loop_openSet_nil {cfg : Config} {st : AState} (fuel : ℕ)
    (h : st.openSet = []) :
    loop cfg (fuel + 1) st = ([], st, some .emptied) := by
  rw [loop]
  have hso : sortOpen st = [] := (sortOpen_nil_iff st).mpr h
  rw [iterate, hso]

theorem loop_succ_continued {cfg : Config} {st : AState} {evs : List AlgoStep}
    {st' : AState} (fuel : ℕ) (hit : iterate cfg st = .continued evs st') :
    loop cfg (fuel + 1) st =
      (evs ++ (loop cfg fuel st').1, (loop cfg fuel st').2.1,
       (loop cfg fuel st').2.2) := by
  rw [loop, hit]

/-- A run can only end `goalReached` when the finish node is not a wall:
walls are skipped before the finish comparison. -/
theorem loop_goal_wall {cfg : Config} :
    ∀ (fuel : ℕ) (st : AState),
      (loop cfg fuel st).2.2 = some .goalReached →
      cfg.isWall cfg.finish = false := by
  intro fuel
  induction fuel with
  | zero => intro st h; simp [loop] at h
  | succ fuel ih =>
    intro st hk
    rw [loop] at hk
    cases hit : iterate cfg st with
    | continued evs st' =>
      rw [hit] at hk
      dsimp only at hk
      exact ih st' hk
    | halted evs st' k =>
      rw [hit] at hk
      dsimp only at hk
      have : k = TermKind.goalReached := by injection hk
      subst this
      obtain ⟨rest, hs, hw, -, -⟩ := iterate_goal hit
      exact hw

/-! ## Concrete grids for the spec's scenarios -/

/-- The 5×5 wall-free grid, start `(0,0)`, goal `(4,4)`. -/
def cfg5 : Config :=
  { rows := 5, cols := 5, isWall := fun _ => false,
    start := ⟨0, 0⟩, finish := ⟨4, 4⟩ }

/-- The 3×3 grid with walls at `(0,1)`, `(1,1)`, `(2,1)` (full column 1),
start `(0,0)`, goal `(2,2)`. -/
def cfg3 : Config :=
  { rows := 3, cols := 3,
    isWall := fun p => decide (p = ⟨0, 1⟩ ∨ p = ⟨1, 1⟩ ∨ p = ⟨2, 1⟩),
    start := ⟨0, 0⟩, finish := ⟨2, 2⟩ }

/-- A 1×3 corridor with a wall in the middle. -/
def cfgC1 : Config :=
  { rows := 1, cols := 3, isWall := fun p => decide (p = ⟨0, 1⟩),
    start := ⟨0, 0⟩, finish := ⟨0, 2⟩ }

/-- A 2×2 grid whose start node is itself a wall. -/
def cfgC2 : Config :=
  { rows := 2, cols := 2, isWall := fun p => decide (p = ⟨0, 0⟩),
    start := ⟨0, 0⟩, finish := ⟨1, 1⟩ }

/-! ## The claims -/

/-- C1 (amended): during every run a wall node is never expanded — it is
never marked visited and never receives a `'visited'` event — but, contrary
to the claim's second half, its search-state fields CAN be rewritten by the
relaxation of a neighbour, because `getUnvisitedNeighbors` does not filter
walls (see the counterexample `C1_cex_wall_relaxed`). -/
theorem C1_wall_never_expanded_amended :
    (∀ (cfg : Config) (fuel : ℕ) (p : Pos), cfg.isWall p = true →
      (((astarRun cfg fuel).2.1).nodes p).isVisited = false) ∧
    (∀ (cfg : Config) (fuel : ℕ), ∀ e ∈ (astarRun cfg fuel).1,
      e.kind = .visitedNode → ∀ p ∈ e.nodes, cfg.isWall p = false) := by
  constructor
  · intro cfg fuel p hw
    rw [astarRun_eq]
    exact loop_wall_unvisited fuel (initState cfg)
      (fun q _ => initState_unvisited cfg q) p hw
  · intro cfg fuel e he hkind p hp
    rw [astarRun_eq] at he
    rcases List.mem_cons.mp he with rfl | h
    · cases hkind
    · exact loop_visited_ev_wall fuel (initState cfg) e h hkind p hp

/-- C1 counterexample: in the 1×3 corridor `cfgC1` the wall `(0,1)` is a
neighbour of the expanded start node and gets its `gScore` relaxed to `1`,
so after the run its search-state fields do not hold the reset defaults. -/
theorem C1_cex_wall_relaxed :
    cfgC1.isWall ⟨0, 1⟩ = true ∧
    ((astarRun cfgC1 10).2.1.nodes ⟨0, 1⟩).gScore = some 1 ∧
    (astarRun cfgC1 10).2.1.nodes ⟨0, 1⟩ ≠ resetNode := by decide

/-- C2 (amended): the engine performs no wall validation of its start and
goal arguments.  With a wall start it still runs: it emits the initial
`'open'` event for the start node and then terminates with the open set
empty (failure) and nothing visited; no error is signalled.  With a wall
goal it searches and can never terminate `goalReached`. -/
theorem C2_no_validation_amended :
    (∀ (cfg : Config) (fuel : ℕ), 2 ≤ fuel → cfg.isWall cfg.start = true →
      (astarRun cfg fuel).1 = [⟨[cfg.start], .openNode⟩] ∧
      (astarRun cfg fuel).2.2 = some .emptied ∧
      ∀ p, (((astarRun cfg fuel).2.1).nodes p).isVisited = false) ∧
    (∀ (cfg : Config) (fuel : ℕ), cfg.isWall cfg.finish = true →
      (astarRun cfg fuel).2.2 ≠ some .goalReached) := by
  constructor
  · intro cfg fuel hf hw
    obtain ⟨f, rfl⟩ : ∃ f, fuel = f + 1 + 1 := ⟨fuel - 2, by omega⟩
    have hso : sortOpen (initState cfg) = [cfg.start] := rfl
    have hit : iterate cfg (initState cfg) =
        .continued [] { initState cfg with openSet := [] } := by
      rw [iterate, hso]
      dsimp only
      rw [if_pos hw]
    have hl := loop_succ_continued (f + 1) hit
    have hnil := @loop_openSet_nil cfg { initState cfg with openSet := [] } f rfl
    rw [astarRun_eq, hl, hnil]
    exact ⟨rfl, rfl, fun p => initState_unvisited cfg p⟩
  · intro cfg fuel hw hk
    rw [astarRun_eq] at hk
    have := loop_goal_wall fuel (initState cfg) hk
    rw [hw] at this
    cases this

/-- C2 counterexample: on `cfgC2`, whose start node is a wall, the engine
does not refuse to run — it emits the initial `'open'` step event and ends
the search in the normal `emptied` termination mode, with no
invalid-configuration error of any kind. -/
theorem C2_cex_wall_start_runs :
    cfgC2.isWall cfgC2.start = true ∧
    (astarRun cfgC2 5).1 = [⟨[⟨0, 0⟩], .openNode⟩] ∧
    (astarRun cfgC2 5).2.2 = some .emptied := by decide

/-- C5 (amended): `getNodesInShortestPathOrder` signals nothing: invoked on
any node whose `previousNode` is unset — in particular a goal the engine
never visited nor relaxed — it returns the ordinary one-element list
`[goal]`, indistinguishable from a valid path. -/
theorem C5_reconstruct_returns_list_amended (st : AState) (p : Pos) (fuel : ℕ)
    (hf : 1 ≤ fuel) (hp : (st.nodes p).previousNode = none) :
    getNodesInShortestPathOrder st fuel p = some [p] := by
  obtain ⟨f, rfl⟩ : ∃ f, fuel = f + 1 := ⟨fuel - 1, by omega⟩
  rw [getNodesInShortestPathOrder, pathFrom, hp, pathFrom]
  rfl

theorem C5_witness :
    1 ≤ 1 ∧ ((initState cfg5).nodes cfg5.finish).previousNode = none ∧
    getNodesInShortestPathOrder (initState cfg5) 1 cfg5.finish =
      some [cfg5.finish] :=
  ⟨by decide, by decide,
    C5_reconstruct_returns_list_amended (initState cfg5) cfg5.finish 1
      (by decide) (by decide)⟩

/-- C5 counterexample: on the fresh 5×5 grid the goal `(4,4)` was never
visited, yet the reconstructor returns the list `[(4,4)]` — a normal
return value, not a distinct contract-violation signal. -/
theorem C5_cex_unvisited_goal :
    ((initState cfg5).nodes cfg5.finish).isVisited = false ∧
    getNodesInShortestPathOrder (initState cfg5) 1 cfg5.finish =
      some [cfg5.finish] := by decide

/-- C6: each iteration pops the head of the open set sorted by the
comparator — a member `closest` with `keyLe (st.nodes closest)
(st.nodes q)` for every member `q`, i.e. minimal `fScore` with ties broken
by minimal `hScore` — leaving exactly the remaining members; and when the
popped node is a wall the iteration emits no event and the loop continues. -/
theorem C6_pop_min (cfg : Config) (st : AState) (closest : Pos)
    (rest : List Pos) (hs : sortOpen st = closest :: rest) :
    closest ∈ st.openSet ∧
    List.Perm (closest :: rest) st.openSet ∧
    (∀ q ∈ st.openSet, keyLe (st.nodes closest) (st.nodes q) = true) ∧
    (cfg.isWall closest = true →
      iterate cfg st = .continued [] { st with openSet := rest }) := by
  refine ⟨sortOpen_mem hs, ?_, sortOpen_head_min hs, ?_⟩
  · have := sortOpen_perm st
    rw [hs] at this
    exact this
  · intro hw
    rw [iterate, hs]
    dsimp only
    rw [if_pos hw]

theorem C6_witness :
    sortOpen (initState cfgC2) = [⟨0, 0⟩] ∧
    ((⟨0, 0⟩ : Pos) ∈ (initState cfgC2).openSet ∧
     List.Perm ((⟨0, 0⟩ : Pos) :: []) (initState cfgC2).openSet ∧
     (∀ q ∈ (initState cfgC2).openSet,
       keyLe ((initState cfgC2).nodes ⟨0, 0⟩) ((initState cfgC2).nodes q) = true) ∧
     (cfgC2.isWall ⟨0, 0⟩ = true →
       iterate cfgC2 (initState cfgC2) =
         .continued [] { initState cfgC2 with openSet := [] })) :=
  ⟨rfl, C6_pop_min cfgC2 (initState cfgC2) ⟨0, 0⟩ [] rfl⟩

/-- C8: every `'visited'` event is for a non-wall node whose `gScore` is
finite at the moment of visitation (first conjunct, per iteration) and
still finite in the final state of the run (second conjunct); and the
defensive `distance === Infinity` early-return is unreachable — no run
from a fresh grid ends in the `infinityHalt` mode. -/
theorem C8_visited_finite :
    (∀ (cfg : Config) (st : AState), WF cfg st →
      ∀ e ∈ (iterate cfg st).evs, e.kind = .visitedNode →
        ∀ p ∈ e.nodes, cfg.isWall p = false ∧ (st.nodes p).gScore ≠ none) ∧
    (∀ (cfg : Config) (fuel : ℕ), inBounds cfg cfg.start →
      (∀ e ∈ (astarRun cfg fuel).1, e.kind = .visitedNode →
        ∀ p ∈ e.nodes, cfg.isWall p = false ∧
          (((astarRun cfg fuel).2.1).nodes p).gScore ≠ none) ∧
      (astarRun cfg fuel).2.2 ≠ some .infinityHalt) := by
  constructor
  · intro cfg st hwf e he hkind p hp
    have h := iterate_visited_ev hwf e he hkind p hp
    exact ⟨h.1, h.2.1⟩
  · intro cfg fuel hb
    have hwf0 := WF_initState cfg hb
    constructor
    · intro e he hkind p hp
      rw [astarRun_eq] at he ⊢
      rcases List.mem_cons.mp he with rfl | h
      · cases hkind
      · have h2 := loop_visited_ev fuel (initState cfg) hwf0 e h hkind p hp
        refine ⟨h2.1, ?_⟩
        have hwfF := loop_wf fuel (initState cfg) hwf0
        exact hwfF.visited_finite p h2.2
    · rw [astarRun_eq]
      exact loop_no_infinity fuel (initState cfg) hwf0

/-- C9: one iteration never increases any node's `gScore`; whenever it
changes a `gScore` the new value is strictly smaller (the guard
`tentativeGScore < neighbor.gScore`); a finite `gScore` stays finite; and
over any number of further iterations the `gScore` still never increases. -/
theorem C9_g_monotone (cfg : Config) (st : AState) (p : Pos) (fuel : ℕ) :
    oLe ((iterate cfg st).state.nodes p).gScore ((st.nodes p).gScore) = true ∧
    (((iterate cfg st).state.nodes p).gScore ≠ (st.nodes p).gScore →
      oLt ((iterate cfg st).state.nodes p).gScore ((st.nodes p).gScore) = true) ∧
    ((st.nodes p).gScore ≠ none →
      ((iterate cfg st).state.nodes p).gScore ≠ none) ∧
    oLe ((loop cfg fuel st).2.1.nodes p).gScore ((st.nodes p).gScore) = true := by
  refine ⟨iterate_g_le cfg st p, iterate_g_strict cfg st p, ?_, loop_g_le fuel st p⟩
  intro hne hc
  have h := iterate_g_le cfg st p
  rw [hc] at h
  exact hne (oLe_none_left h)

/-- C10: once a node is visited in a run from a fresh grid, the remainder
of the run never modifies any of its search-state fields (`gScore`,
`hScore`, `fScore`, `previousNode`, `distance`, `isVisited`): neighbour
enumeration excludes visited nodes and relaxation is the only writer. -/
theorem C10_frame (cfg : Config) (f1 f2 : ℕ) (p : Pos)
    (hb : inBounds cfg cfg.start)
    (hv : (((loop cfg f1 (initState cfg)).2.1).nodes p).isVisited = true) :
    (loop cfg f2 ((loop cfg f1 (initState cfg)).2.1)).2.1.nodes p =
      (loop cfg f1 (initState cfg)).2.1.nodes p :=
  loop_frame f2 _ p (loop_wf f1 _ (WF_initState cfg hb)) hv

theorem C10_witness :
    inBounds cfg5 cfg5.start ∧
    (((loop cfg5 2 (initState cfg5)).2.1).nodes ⟨0, 0⟩).isVisited = true ∧
    (loop cfg5 50 ((loop cfg5 2 (initState cfg5)).2.1)).2.1.nodes ⟨0, 0⟩ =
      (loop cfg5 2 (initState cfg5)).2.1.nodes ⟨0, 0⟩ :=
  ⟨by decide, by decide, C10_frame cfg5 2 50 ⟨0, 0⟩ (by decide) (by decide)⟩

/-- C7: on every finite grid, for every in-grid start and goal, the run
terminates: with enough fuel the loop genuinely ends, and it ends either
with the goal finalized (`goalReached`) or with the open set empty
(`emptied`) — never by running forever and never in the defensive
`infinityHalt` mode. -/
theorem C7_termination (cfg : Config) (hbs : inBounds cfg cfg.start)
    (hbf : inBounds cfg cfg.finish) :
    ∃ fuel tr st k, astarRun cfg fuel = (tr, st, some k) ∧
      (k = .goalReached ∨ (k = .emptied ∧ st.openSet = [])) := by
  have hwf := WF_initState cfg hbs
  set F := fuelMeasure cfg (initState cfg) + 1 with hF
  have hterm := loop_term F (initState cfg) hwf (by omega)
  cases hk : (loop cfg F (initState cfg)).2.2 with
  | none => exact absurd hk hterm
  | some k =>
    refine ⟨F, ⟨[cfg.start], .openNode⟩ :: (loop cfg F (initState cfg)).1,
      (loop cfg F (initState cfg)).2.1, k, ?_, ?_⟩
    · rw [astarRun_eq, hk]
    · cases k with
      | goalReached => left; rfl
      | emptied => right; exact ⟨rfl, loop_emptied_openSet F _ hk⟩
      | infinityHalt => exact absurd hk (loop_no_infinity F _ hwf)

theorem C7_witness :
    inBounds cfg3 cfg3.start ∧ inBounds cfg3 cfg3.finish ∧
    (∃ fuel tr st k, astarRun cfg3 fuel = (tr, st, some k) ∧
      (k = .goalReached ∨ (k = .emptied ∧ st.openSet = []))) :=
  ⟨by decide, by decide, C7_termination cfg3 (by decide) (by decide)⟩

/-- C4: when no wall-free walk joins start and goal, the run terminates in
the `emptied` mode with an empty open set and the goal never receives a
`'visited'` event; in particular on the 3×3 grid with column 1 fully
walled, the run from `(0,0)` to `(2,2)` ends in failure. -/
theorem C4_blocked_fails :
    (∀ cfg : Config, inBounds cfg cfg.start → ¬ Reachable cfg cfg.finish →
      ∃ fuel tr st, astarRun cfg fuel = (tr, st, some .emptied) ∧
        st.openSet = [] ∧
        ∀ e ∈ tr, e.kind = .visitedNode → cfg.finish ∉ e.nodes) ∧
    ((astarRun cfg3 100).2.2 = some .emptied ∧
     (astarRun cfg3 100).2.1.openSet = [] ∧
     ∀ e ∈ (astarRun cfg3 100).1, e.kind = .visitedNode →
       cfg3.finish ∉ e.nodes) := by
  constructor
  · intro cfg hb hnr
    have hwf := WF_initState cfg hb
    have hwfF := loop_wf (fuelMeasure cfg (initState cfg) + 1) (initState cfg) hwf
    set F := fuelMeasure cfg (initState cfg) + 1 with hF
    have hterm := loop_term F (initState cfg) hwf (by omega)
    have hnotgoal : (loop cfg F (initState cfg)).2.2 ≠ some .goalReached := by
      intro hk
      obtain ⟨-, hvis⟩ := loop_goal F (initState cfg) hk
      exact hnr (hwfF.reach cfg.finish (hwfF.visited_finite _ hvis))
    cases hk : (loop cfg F (initState cfg)).2.2 with
    | none => exact absurd hk hterm
    | some k =>
      cases k with
      | goalReached => exact absurd hk hnotgoal
      | infinityHalt => exact absurd hk (loop_no_infinity F _ hwf)
      | emptied =>
        refine ⟨F, ⟨[cfg.start], .openNode⟩ :: (loop cfg F (initState cfg)).1,
          (loop cfg F (initState cfg)).2.1, ?_, ?_, ?_⟩
        · rw [astarRun_eq, hk]
        · exact loop_emptied_openSet F _ hk
        · intro e he hkind hfin
          rcases List.mem_cons.mp he with rfl | h
          · cases hkind
          · have h2 := loop_visited_ev F (initState cfg) hwf e h hkind cfg.finish hfin
            exact hnr (hwfF.reach cfg.finish (hwfF.visited_finite _ h2.2))
  · refine ⟨by decide, by decide, by decide⟩

/-! ## Extra invariants on a wall-free grid (towards claim C3) -/

theorem oLt_some_false {a : ℕ} {b : Option ℕ} (h : oLt (some a) b = false) :
    ∃ x, b = some x ∧ x ≤ a := by
  cases b with
  | none => simp [oLt] at h
  | some x =>
    refine ⟨x, rfl, ?_⟩
    simpa [oLt] using h

theorem oLe_some_right {a : Option ℕ} {b : ℕ} (h : oLe a (some b) = true) :
    ∃ x, a = some x ∧ x ≤ b := by
  cases a with
  | none => simp [oLe] at h
  | some x =>
    refine ⟨x, rfl, ?_⟩
    simpa [oLe] using h

theorem mem_getUnvisited_iff {cfg : Config} {st : AState} {p q : Pos} :
    q ∈ getUnvisitedNeighbors cfg st p ↔
      q ∈ neighborList cfg p ∧ (st.nodes q).isVisited = false := by
  unfold getUnvisitedNeighbors
  rw [List.mem_filter]
  simp

/-- The extra state invariant maintained on a wall-free grid: every visited
node carries an optimal `gScore` (its Manhattan distance from the start),
every visited node has been expanded (each grid neighbour's `gScore` is at
most one more), and the finish node is still unvisited while the loop
runs. -/
structure WFO (cfg : Config) (st : AState) : Prop where
  wf : WF cfg st
  visited_opt : ∀ p, (st.nodes p).isVisited = true →
      (st.nodes p).gScore = some (heuristic cfg.start p)
  expanded : ∀ p, (st.nodes p).isVisited = true →
      ∀ q ∈ neighborList cfg p, ∃ gp gq,
        (st.nodes p).gScore = some gp ∧
        (st.nodes q).gScore = some gq ∧ gq ≤ gp + 1
  finish_unvisited : (st.nodes cfg.finish).isVisited = false

theorem WFO_initState (cfg : Config) (hb : inBounds cfg cfg.start) :
    WFO cfg (initState cfg) := by
  refine ⟨WF_initState cfg hb, ?_, ?_, initState_unvisited cfg _⟩
  · intro p hv
    rw [initState_unvisited cfg p] at hv
    cases hv
  · intro p hv
    rw [initState_unvisited cfg p] at hv
    cases hv

/-- One grid step from `v` toward `z`. -/
def stepToward (v z : Pos) : Pos :=
  if v.row < z.row then ⟨v.row + 1, v.col⟩
  else if z.row < v.row then ⟨v.row - 1, v.col⟩
  else if v.col < z.col then ⟨v.row, v.col + 1⟩
  else ⟨v.row, v.col - 1⟩

theorem stepToward_eq (v z : Pos) :
    (v.row < z.row ∧ stepToward v z = ⟨v.row + 1, v.col⟩) ∨
    (z.row < v.row ∧ stepToward v z = ⟨v.row - 1, v.col⟩) ∨
    (v.row = z.row ∧ v.col < z.col ∧ stepToward v z = ⟨v.row, v.col + 1⟩) ∨
    (v.row = z.row ∧ ¬ v.col < z.col ∧ stepToward v z = ⟨v.row, v.col - 1⟩) := by
  unfold stepToward
  by_cases h1 : v.row < z.row
  · rw [if_pos h1]; exact Or.inl ⟨h1, rfl⟩
  · rw [if_neg h1]
    by_cases h2 : z.row < v.row
    · rw [if_pos h2]; exact Or.inr (Or.inl ⟨h2, rfl⟩)
    · rw [if_neg h2]
      have hrow : v.row = z.row := by omega
      by_cases h3 : v.col < z.col
      · rw [if_pos h3]; exact Or.inr (Or.inr (Or.inl ⟨hrow, h3, rfl⟩))
      · rw [if_neg h3]; exact Or.inr (Or.inr (Or.inr ⟨hrow, h3, rfl⟩))

theorem natDist_triangle (a b c : ℕ) : natDist a c ≤ natDist a b + natDist b c := by
  simp only [natDist]; omega

theorem natDist_step_up {s v z : ℕ} (h : v < z)
    (hopt : natDist s v + natDist v z = natDist s z) :
    natDist s (v + 1) = natDist s v + 1 ∧ natDist (v + 1) z + 1 = natDist v z := by
  simp only [natDist] at hopt ⊢; omega

theorem natDist_step_down {s v z : ℕ} (h : z < v)
    (hopt : natDist s v + natDist v z = natDist s z) :
    natDist s (v - 1) = natDist s v + 1 ∧ natDist (v - 1) z + 1 = natDist v z := by
  simp only [natDist] at hopt ⊢; omega

/-- Stepping from a node `v` that lies on an optimal walk from `s` to `z`
toward `z`: the step is a grid neighbour of `v`, stays in bounds, moves one
farther from `s` and one closer to `z`, and stays on an optimal walk. -/
theorem stepToward_spec {cfg : Config} {s v z : Pos}
    (hbv : inBounds cfg v) (hbz : inBounds cfg z) (hne : v ≠ z)
    (hopt : heuristic s v + heuristic v z = heuristic s z) :
    stepToward v z ∈ neighborList cfg v ∧
    inBounds cfg (stepToward v z) ∧
    heuristic s (stepToward v z) = heuristic s v + 1 ∧
    heuristic (stepToward v z) z + 1 = heuristic v z ∧
    heuristic s (stepToward v z) + heuristic (stepToward v z) z =
      heuristic s z := by
  have hne' : ¬(v.row = z.row ∧ v.col = z.col) := by
    rintro ⟨h1, h2⟩
    exact hne (by cases v; cases z; simp_all)
  obtain ⟨hbv1, hbv2⟩ := hbv
  obtain ⟨hbz1, hbz2⟩ := hbz
  have t1 := natDist_triangle s.row v.row z.row
  have t2 := natDist_triangle s.col v.col z.col
  simp only [heuristic] at hopt
  have hrow : natDist s.row v.row + natDist v.row z.row = natDist s.row z.row := by
    omega
  have hcol : natDist s.col v.col + natDist v.col z.col = natDist s.col z.col := by
    omega
  rcases stepToward_eq v z with ⟨h1, hstep⟩ | ⟨h2, hstep⟩ |
    ⟨heq, h3, hstep⟩ | ⟨heq, h3, hstep⟩ <;> rw [hstep]
  · obtain ⟨e1, e2⟩ := natDist_step_up h1 hrow
    refine ⟨mem_neighborList_iff.mpr (Or.inr (Or.inl ⟨by omega, rfl⟩)), ?_, ?_, ?_, ?_⟩
    · exact ⟨by dsimp only; omega, by dsimp only; omega⟩
    · simp only [heuristic]; omega
    · simp only [heuristic]; omega
    · simp only [heuristic]; omega
  · obtain ⟨e1, e2⟩ := natDist_step_down h2 hrow
    refine ⟨mem_neighborList_iff.mpr (Or.inl ⟨by omega, rfl⟩), ?_, ?_, ?_, ?_⟩
    · exact ⟨by dsimp only; omega, by dsimp only; omega⟩
    · simp only [heuristic]; omega
    · simp only [heuristic]; omega
    · simp only [heuristic]; omega
  · obtain ⟨e1, e2⟩ := natDist_step_up h3 hcol
    refine ⟨mem_neighborList_iff.mpr
      (Or.inr (Or.inr (Or.inr ⟨by omega, rfl⟩))), ?_, ?_, ?_, ?_⟩
    · exact ⟨by dsimp only; omega, by dsimp only; omega⟩
    · simp only [heuristic]; omega
    · simp only [heuristic]; omega
    · simp only [heuristic]; omega
  · have h4 : z.col < v.col := by
      rcases Nat.lt_or_ge z.col v.col with h | h
      · exact h
      · exact absurd (by omega : v.col = z.col) (fun hc => hne' ⟨heq, hc⟩)
    obtain ⟨e1, e2⟩ := natDist_step_down h4 hcol
    refine ⟨mem_neighborList_iff.mpr
      (Or.inr (Or.inr (Or.inl ⟨by omega, rfl⟩))), ?_, ?_, ?_, ?_⟩
    · exact ⟨by dsimp only; omega, by dsimp only; omega⟩
    · simp only [heuristic]; omega
    · simp only [heuristic]; omega
    · simp only [heuristic]; omega

/-- On a wall-free grid, while `z` is unvisited, every visited node `v`
lying optimally between start and `z` gives rise to an open-set member
lying optimally between start and `z` whose `gScore` is optimal: walk from
`v` toward `z` until the first unvisited node. -/
theorem frontier_witness {cfg : Config} {st : AState}
    (hno : ∀ p, inBounds cfg p → cfg.isWall p = false)
    (hwfo : WFO cfg st) {z : Pos} (hbz : inBounds cfg z)
    (hzv : (st.nodes z).isVisited = false) :
    ∀ (d : ℕ) (v : Pos), heuristic v z = d →
      inBounds cfg v → (st.nodes v).isVisited = true →
      heuristic cfg.start v + heuristic v z = heuristic cfg.start z →
      ∃ n ∈ st.openSet, (st.nodes n).gScore = some (heuristic cfg.start n) ∧
        heuristic cfg.start n + heuristic n z = heuristic cfg.start z := by
  intro d
  induction d using Nat.strong_induction_on with
  | _ d ih =>
    intro v hd hbv hvv hvopt
    have hne : v ≠ z := by
      intro h
      rw [h, hzv] at hvv
      cases hvv
    obtain ⟨hmem, hbv', hs1, hs2, hs3⟩ := stepToward_spec hbv hbz hne hvopt
    obtain ⟨gv, gv', hgv, hgv', hle⟩ := hwfo.expanded v hvv (stepToward v z) hmem
    have hgopt := hwfo.visited_opt v hvv
    rw [hgopt] at hgv
    injection hgv with hgv
    have hlow := hwfo.wf.lower (stepToward v z) gv' hgv'
    have hopt' : gv' = heuristic cfg.start (stepToward v z) := by omega
    by_cases hv'v : (st.nodes (stepToward v z)).isVisited = true
    · exact ih (heuristic (stepToward v z) z) (by omega) (stepToward v z) rfl
        hbv' hv'v hs3
    · have hnw := hno (stepToward v z) hbv'
      rcases hwfo.wf.finite_open (stepToward v z) hnw (by rw [hgv']; simp) with
        h | h
      · exact absurd h hv'v
      · exact ⟨stepToward v z, h, by rw [hgv', hopt'], hs3⟩

/-- On a wall-free grid the popped node's `gScore` is optimal: otherwise a
frontier node lying optimally between start and it would have a strictly
smaller `fScore`, contradicting pop-minimality. -/
theorem popped_optimal {cfg : Config} {st : AState} {closest : Pos}
    {rest : List Pos}
    (hno : ∀ p, inBounds cfg p → cfg.isWall p = false)
    (hbs : inBounds cfg cfg.start)
    (hwfo : WFO cfg st) (hs : sortOpen st = closest :: rest) :
    (st.nodes closest).gScore = some (heuristic cfg.start closest) := by
  have hwf := hwfo.wf
  have hmem := sortOpen_mem hs
  have hbc := hwf.mem_bounds closest hmem
  have hunv := hwf.mem_unvisited closest hmem
  obtain ⟨gm, hgm⟩ : ∃ gm, (st.nodes closest).gScore = some gm := by
    cases h : (st.nodes closest).gScore with
    | none => exact absurd h (hwf.mem_finite closest hmem)
    | some g => exact ⟨g, rfl⟩
  have hlow := hwf.lower closest gm hgm
  rcases Nat.lt_or_ge (heuristic cfg.start closest) gm with hgt | hle2
  · exfalso
    have hwit : ∃ n ∈ st.openSet,
        (st.nodes n).gScore = some (heuristic cfg.start n) ∧
        heuristic cfg.start n + heuristic n closest =
          heuristic cfg.start closest := by
      by_cases hsv : (st.nodes cfg.start).isVisited = true
      · exact frontier_witness hno hwfo hbc hunv (heuristic cfg.start closest)
          cfg.start rfl hbs hsv (by rw [heuristic_self, Nat.zero_add])
      · rcases hwf.finite_open cfg.start (hno _ hbs)
          (by rw [hwf.start_g]; simp) with h | h
        · exact absurd h hsv
        · exact ⟨cfg.start, h, by rw [hwf.start_g, heuristic_self],
            by rw [heuristic_self, Nat.zero_add]⟩
    obtain ⟨n, hn, hgn, hnopt⟩ := hwit
    have hkey := sortOpen_head_min hs n hn
    obtain ⟨-, -, g1, hg1, hf1⟩ := hwf.coherent closest (by rw [hgm]; simp)
    rw [hgm] at hg1
    injection hg1 with hg1
    subst hg1
    obtain ⟨-, -, g2, hg2, hf2⟩ := hwf.coherent n (by rw [hgn]; simp)
    rw [hgn] at hg2
    injection hg2 with hg2
    subst hg2
    have htri := heuristic_triangle n closest cfg.finish
    have h1 : oLt ((st.nodes closest).fScore) ((st.nodes n).fScore) = false := by
      rw [hf1, hf2]
      simp only [oLt, decide_eq_false_iff_not, not_lt]
      omega
    have h2 : oLt ((st.nodes n).fScore) ((st.nodes closest).fScore) = true := by
      rw [hf1, hf2]
      simp only [oLt, decide_eq_true_eq]
      omega
    unfold keyLe at hkey
    rw [h1, h2] at hkey
    simp at hkey
  · have : gm = heuristic cfg.start closest := by omega
    rw [hgm, this]

/-- The wall-free extra invariant is preserved by every continuing
iteration (which, on a wall-free grid, is always a regular expansion). -/
theorem WFO_iterate {cfg : Config} {st : AState} {evs : List AlgoStep}
    {st' : AState}
    (hno : ∀ p, inBounds cfg p → cfg.isWall p = false)
    (hbs : inBounds cfg cfg.start)
    (hwfo : WFO cfg st)
    (hit : iterate cfg st = .continued evs st') :
    WFO cfg st' := by
  rcases iterate_spec cfg st with ⟨-, he⟩ | ⟨closest, rest, hs, hcase⟩
  · rw [he] at hit; cases hit
  · have hbc := hwfo.wf.mem_bounds closest (sortOpen_mem hs)
    rcases hcase with ⟨hw, he⟩ | ⟨hw, hd, he⟩ | ⟨hw, hd, ⟨hf, he⟩ | ⟨hf, he⟩⟩
    · rw [hno closest hbc] at hw; cases hw
    · rw [he] at hit; cases hit
    · rw [he] at hit; cases hit
    · rw [he] at hit
      injection hit with h1 h2
      subst h2
      set st2 := setNode { st with openSet := rest } closest
        { st.nodes closest with isVisited := true } with hst2def
      set l := getUnvisitedNeighbors cfg st2 closest with hldef
      have hgopt := popped_optimal hno hbs hwfo hs
      have hwf2 : WF cfg st2 := WF_markVisited hwfo.wf hs hw
      have hv2 : (st2.nodes closest).isVisited = true := by
        rw [hst2def, setNode_nodes_self]
      have hwf3 : WF cfg (relaxList cfg closest l st2).1 :=
        WF_relax hwf2 hv2 hbc hw
      have hcur : closest ∉ l := by
        intro hx
        have := (mem_getUnvisited hx).2
        rw [hv2] at this; cases this
      have hnd : l.Nodup := getUnvisited_nodup cfg st2 closest
      have hchar := relaxList_char cfg closest l st2 hcur hnd
      have hframe := relaxList_nodes_frame cfg closest l st2
      have hvis := relaxList_isVisited cfg closest l st2
      have e2 : ∀ q, q ≠ closest → st2.nodes q = st.nodes q := by
        intro q hq
        rw [hst2def, setNode_nodes_ne _ _ hq]
      have e2c : st2.nodes closest =
          { st.nodes closest with isVisited := true } := by
        rw [hst2def, setNode_nodes_self]
      have hg2 : ∀ q, (st2.nodes q).gScore = (st.nodes q).gScore := by
        intro q
        by_cases hq : q = closest
        · subst hq; rw [e2c]
        · rw [e2 q hq]
      have hg2c : (st2.nodes closest).gScore =
          some (heuristic cfg.start closest) := by
        rw [hg2]; exact hgopt
      refine ⟨hwf3, ?_, ?_, ?_⟩
      · -- visited_opt
        intro p hp
        rw [hvis p] at hp
        by_cases hpc : p = closest
        · subst hpc
          rw [hframe p hcur]
          exact hg2c
        · rw [e2 p hpc] at hp
          have hpl : p ∉ l := by
            intro hx
            have := (mem_getUnvisited hx).2
            rw [e2 p hpc, hp] at this; cases this
          rw [hframe p hpl, e2 p hpc]
          exact hwfo.visited_opt p hp
      · -- expanded
        intro p hp q hq
        rw [hvis p] at hp
        by_cases hpc : p = closest
        · subst hpc
          have hg3p : ((relaxList cfg p l st2).1.nodes p).gScore =
              some (heuristic cfg.start p) := by
            rw [hframe p hcur]
            exact hg2c
          have hqc : q ≠ p := by
            intro hx
            subst hx
            exact self_not_mem_neighborList cfg q hq
          by_cases hqv : (st2.nodes q).isVisited = true
          · have hql : q ∉ l := by
              intro hx
              have := (mem_getUnvisited hx).2
              rw [hqv] at this; cases this
            have hqvst : (st.nodes q).isVisited = true := by
              rw [← e2 q hqc]; exact hqv
            have hgq := hwfo.visited_opt q hqvst
            refine ⟨heuristic cfg.start p, heuristic cfg.start q, hg3p, ?_, ?_⟩
            · rw [hframe q hql, e2 q hqc]
              exact hgq
            · have ht := heuristic_triangle cfg.start p q
              have ha := heuristic_adj hq
              omega
          · have hql : q ∈ l := by
              rw [hldef]
              exact mem_getUnvisited_iff.mpr ⟨hq, by simpa using hqv⟩
            rcases hchar q hql with ⟨heq, hlt⟩ | ⟨gc, hgc, hlt, heq, -⟩
            · rw [hg2c] at hlt
              simp only [oAdd1] at hlt
              obtain ⟨x, hx, hxle⟩ := oLt_some_false hlt
              refine ⟨heuristic cfg.start p, x, hg3p, ?_, by omega⟩
              rw [heq, hx]
            · rw [hg2c] at hgc
              injection hgc with hgc
              refine ⟨heuristic cfg.start p, gc + 1, hg3p, ?_, by omega⟩
              rw [heq]
              rfl
        · rw [e2 p hpc] at hp
          obtain ⟨gp, gq, hgp, hgq, hle⟩ := hwfo.expanded p hp q hq
          have hpl : p ∉ l := by
            intro hx
            have := (mem_getUnvisited hx).2
            rw [e2 p hpc, hp] at this; cases this
          have hg3p : ((relaxList cfg closest l st2).1.nodes p).gScore =
              some gp := by
            rw [hframe p hpl, e2 p hpc]
            exact hgp
          have hble := relaxList_g_le cfg closest l st2 q
          rw [hg2 q, hgq] at hble
          obtain ⟨x, hx, hxle⟩ := oLe_some_right hble
          exact ⟨gp, x, hg3p, hx, by omega⟩
      · -- finish_unvisited
        rw [hvis cfg.finish]
        by_cases hfc : cfg.finish = closest
        · exact absurd hfc.symm hf
        · rw [e2 _ hfc]
          exact hwfo.finish_unvisited

/-- Following the predecessor chain from a node with finite `gScore`
reaches the start in exactly `gScore` backward steps: the reconstructor
returns a list of `gScore + 1` nodes whenever given enough fuel. -/
theorem pathFrom_chain {cfg : Config} {st : AState} (hwf : WF cfg st) :
    ∀ (gp : ℕ) (p : Pos), (st.nodes p).gScore = some gp →
      ∀ fuel, gp < fuel →
        ∃ l, pathFrom st fuel (some p) = some l ∧ l.length = gp + 1 := by
  intro gp
  induction gp using Nat.strong_induction_on with
  | _ gp ih =>
    intro p hgp fuel hfuel
    obtain ⟨f, rfl⟩ : ∃ f, fuel = f + 1 := ⟨fuel - 1, by omega⟩
    cases hprev : (st.nodes p).previousNode with
    | none =>
      have hpstart := hwf.prev_none p (by rw [hgp]; simp) hprev
      have hg0 : gp = 0 := by
        have hsg := hwf.start_g
        rw [← hpstart, hgp] at hsg
        injection hsg
      subst hg0
      refine ⟨[p], ?_, rfl⟩
      rw [pathFrom, hprev, pathFrom]
      rfl
    | some q =>
      obtain ⟨hqv, gq, hgq, hgp'⟩ := hwf.prev_link p q hprev
      rw [hgp] at hgp'
      injection hgp' with hh
      subst hh
      obtain ⟨lq, hlq, hlen⟩ := ih gq (by omega) q hgq f (by omega)
      refine ⟨lq ++ [p], ?_, by simp [hlen]⟩
      rw [pathFrom, hprev, hlq]

/-- The main loop on a wall-free grid always ends by finalizing the goal,
with the goal's `gScore` equal to its Manhattan distance from the start. -/
theorem openGrid_loop {cfg : Config}
    (hno : ∀ p, inBounds cfg p → cfg.isWall p = false)
    (hbs : inBounds cfg cfg.start) (hbf : inBounds cfg cfg.finish) :
    ∀ (fuel : ℕ) (st : AState), WFO cfg st → fuelMeasure cfg st < fuel →
      ∃ tr st', loop cfg fuel st = (tr, st', some .goalReached) ∧
        (AlgoStep.mk [cfg.finish] .visitedNode) ∈ tr ∧
        (st'.nodes cfg.finish).gScore =
          some (heuristic cfg.start cfg.finish) ∧
        WF cfg st' := by
  intro fuel
  induction fuel with
  | zero => intro st _ h; omega
  | succ fuel ih =>
    intro st hwfo hm
    rcases iterate_spec cfg st with ⟨hop, he⟩ | ⟨closest, rest, hs, hcase⟩
    · exfalso
      by_cases hsv : (st.nodes cfg.start).isVisited = true
      · obtain ⟨n, hn, -, -⟩ := frontier_witness hno hwfo hbf
          hwfo.finish_unvisited (heuristic cfg.start cfg.finish) cfg.start rfl
          hbs hsv (by rw [heuristic_self, Nat.zero_add])
        rw [hop] at hn
        cases hn
      · rcases hwfo.wf.finite_open cfg.start (hno _ hbs)
          (by rw [hwfo.wf.start_g]; simp) with h | h
        · exact hsv h
        · rw [hop] at h
          cases h
    · have hbc := hwfo.wf.mem_bounds closest (sortOpen_mem hs)
      rcases hcase with ⟨hw, he⟩ | ⟨hw, hd, he⟩ | ⟨hw, hd, ⟨hf, he⟩ | ⟨hf, he⟩⟩
      · rw [hno closest hbc] at hw; cases hw
      · exact absurd hd (WF_no_infinity hwfo.wf hs)
      · subst hf
        refine ⟨[⟨[cfg.finish], .visitedNode⟩],
          setNode { st with openSet := rest } cfg.finish
            { st.nodes cfg.finish with isVisited := true }, ?_,
          List.mem_cons_self _ _, ?_, ?_⟩
        · rw [loop, he]
        · rw [setNode_nodes_self]
          exact popped_optimal hno hbs hwfo hs
        · exact WF_markVisited hwfo.wf hs hw
      · have hwfo' := WFO_iterate hno hbs hwfo he
        have hdec := iterate_measure hwfo.wf he
        obtain ⟨tr, st', hloop, htr, hg, hwf'⟩ := ih _ hwfo' (by omega)
        refine ⟨(loop cfg (fuel + 1) st).1, st', ?_, ?_, hg, hwf'⟩
        · rw [loop_succ_continued fuel he, hloop]
        · rw [loop_succ_continued fuel he, hloop]
          exact List.mem_append_right _ htr

/-- C3: on every wall-free rectangular grid with start and goal in bounds,
the run terminates successfully — the goal receives its `'visited'` event —
and the reconstructed path holds exactly (Manhattan distance from start to
goal) + 1 nodes; in particular on the 5×5 grid from `(0,0)` to `(4,4)` the
path has 9 nodes and the goal's cost (`gScore`) is 8. -/
theorem C3_open_grid :
    (∀ cfg : Config, (∀ p, inBounds cfg p → cfg.isWall p = false) →
      inBounds cfg cfg.start → inBounds cfg cfg.finish →
      ∃ fuel tr st, astarRun cfg fuel = (tr, st, some .goalReached) ∧
        (AlgoStep.mk [cfg.finish] .visitedNode) ∈ tr ∧
        ∃ path, getNodesInShortestPathOrder st
            (heuristic cfg.start cfg.finish + 1) cfg.finish = some path ∧
          path.length = heuristic cfg.start cfg.finish + 1) ∧
    ((astarRun cfg5 200).2.2 = some .goalReached ∧
     (AlgoStep.mk [cfg5.finish] .visitedNode) ∈ (astarRun cfg5 200).1 ∧
     (getNodesInShortestPathOrder (astarRun cfg5 200).2.1 9 ⟨4, 4⟩).map
        List.length = some 9 ∧
     ((astarRun cfg5 200).2.1.nodes ⟨4, 4⟩).gScore = some 8) := by
  constructor
  · intro cfg hno hbs hbf
    obtain ⟨tr, st', hloop, htr, hg, hwf'⟩ := openGrid_loop hno hbs hbf
      (fuelMeasure cfg (initState cfg) + 1) (initState cfg)
      (WFO_initState cfg hbs) (by omega)
    refine ⟨fuelMeasure cfg (initState cfg) + 1,
      ⟨[cfg.start], .openNode⟩ :: tr, st', ?_, List.mem_cons_of_mem _ htr, ?_⟩
    · rw [astarRun_eq, hloop]
    · exact pathFrom_chain hwf' (heuristic cfg.start cfg.finish) cfg.finish hg
        (heuristic cfg.start cfg.finish + 1) (by omega)
  · exact ⟨by decide, by decide, by decide, by decide⟩

end AStar
